import Mathlib

/-!
# Verification of the family-tree relationship and layout engines

This development gives a shallow embedding, in Lean 4, of the algorithmic core
of a family-tree application written in TypeScript/React:

* the data model (`PartialDate`, `Person`, `FamilyData`),
* the graph-integrity engine (`getDescendantIds`, `getAncestorIds`,
  `wouldCreateCycle`),
* the date model (`parseDateInput`, `comparePartialDates`, `validateBirthDeath`),
* the persistence-side checks (`validateFamilyData`, `computeHash`),
* the mutation orchestrator (`handleSavePerson`, `handleDeletePerson`,
  `handleParentToggle`),
* the layered layout engine (`assignGenerations`, `computeLayout`).

Modelling conventions:

* JavaScript arrays are Lean `List`s; a JS `Set`/`Map` is modelled as a list
  (respectively association list) with the same membership/lookup semantics,
  preserving insertion order where the code observes it.
* JS numbers are modelled as `Int`/`Nat` where the code only handles integers
  and as `ℚ` (exact rationals) for the layout coordinates; IEEE-754 rounding
  is not modelled.
* Stateful loops are modelled by explicit accumulator passing.  Loops whose
  termination is not structural take an explicit fuel parameter together with
  a proof that the fuel chosen in the wrapper is always sufficient.
-/

/-! ## Data model (src/types.ts) -/

/-- `PartialDate` from types.ts: `{ year?: number; date?: string }`. -/
structure PartialDate where
  year : Option Int := none
  date : Option String := none
deriving DecidableEq, Repr

/-- `Person` from types.ts. -/
structure Person where
  id : String
  firstName : String
  lastName : Option String := none
  birth : Option PartialDate := none
  death : Option PartialDate := none
  photoDataUrl : Option String := none
  parentIds : List String := []
  siblingIds : List String := []
  notes : Option String := none
deriving DecidableEq, Repr

/-- `FamilyData` from types.ts (`version: 1` is modelled as a `Nat` field). -/
structure FamilyData where
  version : Nat := 1
  updatedAt : String
  people : List Person
deriving DecidableEq, Repr

/-! ## Graph integrity engine (src/validation.ts)

`getDescendantIds` and `getAncestorIds` are worklist traversals over a
mutable `Set`/queue.  The JS queue is an array used as a stack
(`push`/`pop` at the end); we represent it as a list whose head is the top
of the stack.  The visited set is a list with `Set.has`/`Set.add`
(append) semantics.  Each `while` loop takes a fuel parameter and returns
`none` on fuel exhaustion; `descLoop_isSome`/`ancLoop_isSome` below prove the
fuel used by the wrappers is always sufficient, on every input. -/

/-- One sweep of the inner `for` loop shared by both traversals: given
candidate ids (in iteration order) and the current visited list, add each
candidate that is not yet visited.  Returns the new visited list and the
list of newly added ids (in the order they were pushed on the JS queue). -/
def addNewIds : List String → List String → List String × List String
  | [], visited => (visited, [])
  | c :: cs, visited =>
    if c ∈ visited then addNewIds cs visited
    else ((addNewIds cs (visited ++ [c])).1, c :: (addNewIds cs (visited ++ [c])).2)

/-- The `while (queue.length > 0)` loop of `getDescendantIds`.  On each
iteration it pops `current` and scans `people` for `p` with
`p.parentIds.includes(current) && !descendants.has(p.id)`, adding those to the
set and the queue.  Newly pushed ids sit above the rest of the stack, with
the last pushed on top, hence `r.2.reverse ++ rest`. -/
def descLoop (people : List Person) : Nat → List String → List String → Option (List String)
  | _, [], visited => some visited
  | 0, _ :: _, _ => none
  | fuel + 1, current :: rest, visited =>
    let r := addNewIds ((people.filter (fun p => p.parentIds.contains current)).map Person.id)
      visited
    descLoop people fuel (r.2.reverse ++ rest) r.1

/-- `getDescendantIds` from validation.ts.  The fuel `people.length + 1`
never runs out (`getDescendantIds_some` below), so the `getD` default is
never taken. -/
def getDescendantIds (personId : String) (people : List Person) : List String :=
  (descLoop people (people.length + 1) [personId] []).getD []

/-- The `while` loop of `getAncestorIds`: pop `current`, look the person up
(`people.find(p => p.id === current)`), and add every parent id not yet in
the set. -/
def ancLoop (people : List Person) : Nat → List String → List String → Option (List String)
  | _, [], visited => some visited
  | 0, _ :: _, _ => none
  | fuel + 1, current :: rest, visited =>
    let cands :=
      match people.find? (fun p => p.id = current) with
      | some person => person.parentIds
      | none => []
    let r := addNewIds cands visited
    ancLoop people fuel (r.2.reverse ++ rest) r.1

/-- `getAncestorIds` from validation.ts, with provably sufficient fuel. -/
def getAncestorIds (personId : String) (people : List Person) : List String :=
  (ancLoop people ((people.flatMap Person.parentIds).length + 1) [personId] []).getD []

/-- `wouldCreateCycle` from validation.ts. -/
def wouldCreateCycle (personId candidateParentId : String) (people : List Person) : Bool :=
  if personId = candidateParentId then true
  else (getDescendantIds personId people).contains candidateParentId

/-! ### Termination of the worklist traversals -/

theorem addNewIds_spec (cs : List String) (visited : List String) :
    (addNewIds cs visited).1 = visited ++ (addNewIds cs visited).2 ∧
      (addNewIds cs visited).2.Nodup ∧
      ∀ a ∈ (addNewIds cs visited).2, a ∈ cs ∧ a ∉ visited := by
  induction cs generalizing visited with
  | nil => simp [addNewIds]
  | cons c cs ih =>
    by_cases hc : c ∈ visited
    · simp only [addNewIds, if_pos hc]
      obtain ⟨h1, h2, h3⟩ := ih visited
      exact ⟨h1, h2, fun a ha => ⟨List.mem_cons_of_mem _ (h3 a ha).1, (h3 a ha).2⟩⟩
    · simp only [addNewIds, if_neg hc]
      obtain ⟨h1, h2, h3⟩ := ih (visited ++ [c])
      refine ⟨?_, ?_, ?_⟩
      · simpa [List.append_assoc] using h1
      · refine List.nodup_cons.2 ⟨fun hmem => ?_, h2⟩
        have := (h3 c hmem).2
        simp at this
      · intro a ha
        rcases List.mem_cons.1 ha with rfl | ha₂
        · exact ⟨List.mem_cons_self _ _, hc⟩
        · refine ⟨List.mem_cons_of_mem _ (h3 a ha₂).1, fun hav => (h3 a ha₂).2 ?_⟩
          exact List.mem_append_left _ hav

/-- The new visited set after a sweep removes exactly `added.length` elements
from the not-yet-visited part of any universe `A` containing the added ids. -/
theorem sweep_card_drop (A : Finset String) (visited added : List String)
    (hnd : added.Nodup) (hsub : added.toFinset ⊆ A \ visited.toFinset) :
    (A \ (visited ++ added).toFinset).card + added.length
      = (A \ visited.toFinset).card := by
  have hsplit : A \ (visited ++ added).toFinset
      = (A \ visited.toFinset) \ added.toFinset := by
    ext x
    simp only [Finset.mem_sdiff, List.toFinset_append, Finset.mem_union]
    tauto
  rw [hsplit, Finset.card_sdiff hsub, List.toFinset_card_of_nodup hnd]
  have hle : added.toFinset.card ≤ (A \ visited.toFinset).card :=
    Finset.card_le_card hsub
  rw [List.toFinset_card_of_nodup hnd] at hle
  omega

/-- Fuel sufficiency for `descLoop`: as long as the fuel dominates
`queue.length` plus the number of not-yet-visited ids, the loop finishes.
Every iteration pops one queue entry and pushes only ids that
simultaneously enter the visited set, so the measure drops by one. -/
theorem descLoop_isSome (people : List Person) :
    ∀ (fuel : Nat) (queue visited : List String),
      queue.length + ((people.map Person.id).toFinset \ visited.toFinset).card ≤ fuel →
      (descLoop people fuel queue visited).isSome := by
  intro fuel
  induction fuel with
  | zero =>
    intro queue visited h
    match queue with
    | [] => simp [descLoop]
    | q :: rest => exfalso; simp only [List.length_cons] at h; omega
  | succ fuel ih =>
    intro queue visited h
    match queue with
    | [] => simp [descLoop]
    | current :: rest =>
      obtain ⟨h1, h2, h3⟩ := addNewIds_spec
        ((people.filter (fun p => p.parentIds.contains current)).map Person.id) visited
      have hsub : (addNewIds
            ((people.filter (fun p => p.parentIds.contains current)).map Person.id)
            visited).2.toFinset ⊆
          (people.map Person.id).toFinset \ visited.toFinset := by
        intro a ha
        rw [List.mem_toFinset] at ha
        obtain ⟨hin, hout⟩ := h3 a ha
        rw [Finset.mem_sdiff, List.mem_toFinset, List.mem_toFinset]
        refine ⟨?_, hout⟩
        rcases List.mem_map.1 hin with ⟨p, hp, rfl⟩
        exact List.mem_map_of_mem _ (List.mem_of_mem_filter hp)
      have hdrop := sweep_card_drop (people.map Person.id).toFinset visited _ h2 hsub
      simp only [descLoop]
      apply ih
      rw [h1]
      simp only [List.length_append, List.length_reverse, List.length_cons] at *
      omega

/-- `descLoop` never exhausts the fuel used by `getDescendantIds`: the
traversal terminates on every input, cyclic graphs included. -/
theorem getDescendantIds_some (personId : String) (people : List Person) :
    (descLoop people (people.length + 1) [personId] []).isSome := by
  apply descLoop_isSome
  simp only [List.length_cons, List.length_nil, List.toFinset_nil, Finset.sdiff_empty]
  have := List.toFinset_card_le (people.map Person.id)
  simp only [List.length_map] at this
  omega

/-- Fuel sufficiency for `ancLoop`, with the multiset of all parent ids as
the universe: every id ever added to the ancestor set is some person's
parent id. -/
theorem ancLoop_isSome (people : List Person) :
    ∀ (fuel : Nat) (queue visited : List String),
      queue.length + ((people.flatMap Person.parentIds).toFinset \ visited.toFinset).card
        ≤ fuel →
      (ancLoop people fuel queue visited).isSome := by
  intro fuel
  induction fuel with
  | zero =>
    intro queue visited h
    match queue with
    | [] => simp [ancLoop]
    | q :: rest => exfalso; simp only [List.length_cons] at h; omega
  | succ fuel ih =>
    intro queue visited h
    match queue with
    | [] => simp [ancLoop]
    | current :: rest =>
      have hcands : ∀ a ∈ (match people.find? (fun p => p.id = current) with
          | some person => person.parentIds
          | none => ([] : List String)), a ∈ people.flatMap Person.parentIds := by
        intro a ha
        match hf : people.find? (fun p => p.id = current) with
        | some person =>
          rw [hf] at ha
          exact List.mem_flatMap.2 ⟨person, List.mem_of_find?_eq_some hf, ha⟩
        | none => rw [hf] at ha; simp at ha
      obtain ⟨h1, h2, h3⟩ := addNewIds_spec
        (match people.find? (fun p => p.id = current) with
          | some person => person.parentIds
          | none => []) visited
      have hsub : (addNewIds (match people.find? (fun p => p.id = current) with
            | some person => person.parentIds
            | none => []) visited).2.toFinset ⊆
          (people.flatMap Person.parentIds).toFinset \ visited.toFinset := by
        intro a ha
        rw [List.mem_toFinset] at ha
        obtain ⟨hin, hout⟩ := h3 a ha
        rw [Finset.mem_sdiff, List.mem_toFinset, List.mem_toFinset]
        exact ⟨hcands a hin, hout⟩
      have hdrop := sweep_card_drop (people.flatMap Person.parentIds).toFinset visited _ h2 hsub
      simp only [ancLoop]
      apply ih
      rw [h1]
      simp only [List.length_append, List.length_reverse, List.length_cons] at *
      omega

/-- `ancLoop` never exhausts the fuel used by `getAncestorIds`. -/
theorem getAncestorIds_some (personId : String) (people : List Person) :
    (ancLoop people ((people.flatMap Person.parentIds).length + 1) [personId] []).isSome := by
  apply ancLoop_isSome
  simp only [List.length_cons, List.length_nil, List.toFinset_nil, Finset.sdiff_empty]
  have := List.toFinset_card_le (people.flatMap Person.parentIds)
  omega

/-- C9.  Both worklist traversals are total: on every input list of persons —
including lists whose `parentIds` edges form cycles — the `while` loops of
`getDescendantIds` and `getAncestorIds` finish within the fuel the wrappers
supply (and hence return a set). -/
theorem traversals_terminate (personId : String) (people : List Person) :
    (descLoop people (people.length + 1) [personId] []).isSome ∧
      (ancLoop people ((people.flatMap Person.parentIds).length + 1) [personId] []).isSome :=
  ⟨getDescendantIds_some personId people, getAncestorIds_some personId people⟩

/-- C1.  `wouldCreateCycle x y people` is true exactly when `y = x` or `y` is
in the set returned by `getDescendantIds x people`. -/
theorem wouldCreateCycle_iff (x y : String) (people : List Person) :
    wouldCreateCycle x y people = true ↔ (y = x ∨ y ∈ getDescendantIds x people) := by
  by_cases hxy : x = y
  · simp [wouldCreateCycle, hxy]
  · simp only [wouldCreateCycle, if_neg hxy]
    rw [List.contains_eq_any_beq]
    simp only [List.any_beq, decide_eq_true_eq]
    constructor
    · exact fun h => Or.inr h
    · rintro (rfl | h)
      · exact absurd rfl hxy
      · exact h

/-! ## String primitives

Lean's built-in `String.lt` and `String.trim` are iterator-based and do not
reduce in the kernel, so the JS string primitives the code relies on are
modelled directly on character lists: `charListLt` is code-unit
lexicographic comparison (JS `<` on strings; for the ASCII data handled
here, code units and code points agree), and `jsTrim` is
`String.prototype.trim`. -/

/-- Code-unit lexicographic `<` on character lists. -/
def charListLt : List Char → List Char → Bool
  | [], [] => false
  | [], _ :: _ => true
  | _ :: _, [] => false
  | a :: as, b :: bs =>
    if a.toNat < b.toNat then true
    else if b.toNat < a.toNat then false
    else charListLt as bs

/-- JS `a < b` on strings. -/
def jsStrLt (a b : String) : Bool := charListLt a.toList b.toList

/-- JS `String.prototype.trim` (whitespace = space, tab, CR, LF — the
characters occurring in practice). -/
def jsTrim (s : String) : String :=
  String.mk (((s.toList.dropWhile Char.isWhitespace).reverse.dropWhile Char.isWhitespace).reverse)

/-- `parseInt(s, 10)` on an all-digit string. -/
def digitsToNat (cs : List Char) : Nat :=
  cs.foldl (fun n c => n * 10 + (c.toNat - 48)) 0

/-! ## Date model (src/validation.ts)

`parseDateInput`, `comparePartialDates` and `validateBirthDeath`.  JS
truthiness of an optional string (`a.date && b.date`) is false for both
`undefined` and the empty string; `a.year != null` is a pure presence
check. -/

/-- JS truthiness of an optional string field. -/
def strTruthy : Option String → Bool
  | none => false
  | some s => !(s == "")

/-- `comparePartialDates` from validation.ts (a private helper of
`validateBirthDeath`).  Returns `none` for JS `null`. -/
def comparePartialDates (a b : Option PartialDate) : Option Int :=
  match a, b with
  | none, _ => none
  | some _, none => none
  | some a, some b =>
    if strTruthy a.date && strTruthy b.date then
      if jsStrLt (a.date.getD "") (b.date.getD "") then some (-1)
      else if jsStrLt (b.date.getD "") (a.date.getD "") then some 1
      else some 0
    else if a.year.isSome && b.year.isSome then
      if a.year.getD 0 < b.year.getD 0 then some (-1)
      else if b.year.getD 0 < a.year.getD 0 then some 1
      else some 0
    else none

/-- `validateBirthDeath` from validation.ts: an error message exactly when
the comparison is defined and positive. -/
def validateBirthDeath (birth death : Option PartialDate) : Option String :=
  match comparePartialDates birth death with
  | some cmp => if cmp > 0 then some "Birth date must be before or equal to death date" else none
  | none => none

/-- Result record of `parseDateInput` (`{ value?: PartialDate; error?: string }`). -/
structure ParseDateResult where
  value : Option PartialDate := none
  error : Option String := none
deriving DecidableEq, Repr

/-- Shape test for the `/^\d{4}-\d{2}-\d{2}$/` regular expression. -/
def isFullDateShape (s : String) : Bool :=
  match s.toList with
  | [a, b, c, d, e, f, g, h, i, j] =>
    a.isDigit && b.isDigit && c.isDigit && d.isDigit && e == '-' &&
      f.isDigit && g.isDigit && h == '-' && i.isDigit && j.isDigit
  | _ => false

/-- Days in a month, with Gregorian leap years — the calendar check behind
JS `new Date(trimmed + "T00:00:00")` returning a valid date. -/
def daysInMonth (year month : Nat) : Nat :=
  if month = 1 ∨ month = 3 ∨ month = 5 ∨ month = 7 ∨ month = 8 ∨ month = 10 ∨ month = 12
    then 31
  else if month = 4 ∨ month = 6 ∨ month = 9 ∨ month = 11 then 30
  else if month = 2 then
    if year % 4 = 0 ∧ (year % 100 ≠ 0 ∨ year % 400 = 0) then 29 else 28
  else 0

/-- Validity of a `YYYY-MM-DD` string as a real calendar date (the shape has
already been checked). -/
def isValidDate (s : String) : Bool :=
  let cs := s.toList
  let year := digitsToNat (cs.take 4)
  let month := digitsToNat ((cs.drop 5).take 2)
  let day := digitsToNat (cs.drop 8)
  1 ≤ month && month ≤ 12 && 1 ≤ day && day ≤ daysInMonth year month

/-- `parseDateInput` from validation.ts.  `parseInt(trimmed, 10)` on an
all-digit string is exact integer parsing (IEEE-754 precision loss on
astronomically long inputs is not modelled). -/
def parseDateInput (input : String) : ParseDateResult :=
  let trimmed := jsTrim input
  if trimmed = "" then {}
  else if trimmed.toList ≠ [] && trimmed.toList.all Char.isDigit then
    { value := some { year := some ((digitsToNat trimmed.toList : Nat) : Int) } }
  else if isFullDateShape trimmed then
    if isValidDate trimmed then
      { value := some { year := some ((digitsToNat (trimmed.toList.take 4) : Nat) : Int),
                        date := some trimmed } }
    else { error := some ("\"" ++ trimmed ++ "\" is not a valid date") }
  else { error := some "Enter a year (e.g. 1950) or full date (e.g. 1950-03-15)" }

/-- C4, counterexample.  The claim says a year-only birth `1950` together
with full-date death `1949-01-01` has mixed precision, is "not comparable",
and so `validateBirthDeath` reports no error.  In the code a full date
always carries its `year` field, so the year-number fallback of
`comparePartialDates` applies (`1950 > 1949`) and an error IS reported. -/
theorem yearOnly_vs_fullDate_claim_false :
    parseDateInput "1950" = { value := some { year := some 1950 } } ∧
      parseDateInput "1949-01-01"
        = { value := some { year := some 1949, date := some "1949-01-01" } } ∧
      ¬ (validateBirthDeath (some { year := some 1950 })
          (some { year := some 1949, date := some "1949-01-01" }) = none) := by
  refine ⟨by decide, by decide, by decide⟩

/-- C4, amended.  With birth entered as `1950` and death as `1949-01-01`,
both parsed values carry a `year`, `comparePartialDates` falls back to the
numeric year comparison and returns `1`, and `validateBirthDeath` reports
the ordering error — the save is rejected, not accepted.  (A comparison is
indeterminate only when one side is absent, or in the unreachable stored
case of a value with neither usable `date` nor `year`.) -/
theorem yearOnly_vs_fullDate_rejected :
    comparePartialDates ((parseDateInput "1950").value)
        ((parseDateInput "1949-01-01").value) = some 1 ∧
      validateBirthDeath ((parseDateInput "1950").value)
        ((parseDateInput "1949-01-01").value)
        = some "Birth date must be before or equal to death date" := by
  refine ⟨by decide, by decide⟩

/-! ## Persistence-side checks (src/persistence.ts) -/

/-- `computeHash` from persistence.ts is `JSON.stringify(data.people)`.  The
serialisation itself (`stringifyPeople`) is modelled field-by-field in
object-literal order, omitting absent optional fields, as
`JSON.stringify` does for `undefined`; its exact output format is
irrelevant to the properties proved here, which only use that the hash is a
function of `people` alone. -/
def stringifyString (s : String) : String := "\"" ++ s ++ "\""

/-- One `Person` as a JSON object string (field order as constructed in
PersonModal.tsx; absent optional fields omitted). -/
def stringifyPerson (p : Person) : String :=
  "\x7b" ++
    "\"id\":" ++ stringifyString p.id ++
    ",\"firstName\":" ++ stringifyString p.firstName ++
    (match p.lastName with | some s => ",\"lastName\":" ++ stringifyString s | none => "") ++
    (match p.birth with
      | some b =>
        ",\"birth\":\x7b" ++
          (match b.year with | some y => "\"year\":" ++ toString y | none => "") ++
          (match b.date with | some d => ",\"date\":" ++ stringifyString d | none => "") ++
          "\x7d"
      | none => "") ++
    (match p.death with
      | some b =>
        ",\"death\":\x7b" ++
          (match b.year with | some y => "\"year\":" ++ toString y | none => "") ++
          (match b.date with | some d => ",\"date\":" ++ stringifyString d | none => "") ++
          "\x7d"
      | none => "") ++
    (match p.photoDataUrl with
      | some s => ",\"photoDataUrl\":" ++ stringifyString s | none => "") ++
    ",\"parentIds\":[" ++ String.intercalate "," (p.parentIds.map stringifyString) ++ "]" ++
    ",\"siblingIds\":[" ++ String.intercalate "," (p.siblingIds.map stringifyString) ++ "]" ++
    (match p.notes with | some s => ",\"notes\":" ++ stringifyString s | none => "") ++
  "\x7d"

/-- `JSON.stringify` of the people array. -/
def stringifyPeople (people : List Person) : String :=
  "[" ++ String.intercalate "," (people.map stringifyPerson) ++ "]"

/-- `computeHash` from persistence.ts: `JSON.stringify(data.people)`. -/
def computeHash (data : FamilyData) : String :=
  stringifyPeople data.people

/-- The derived dirty flag of App.tsx line 30:
`computeHash(data) !== baselineHash`. -/
def dirtyFlag (data : FamilyData) (baselineHash : String) : Bool :=
  computeHash data != baselineHash

/-- C10.  `computeHash` reads only the `people` array: two `FamilyData`
values with identical people but different `updatedAt` or `version` hash
identically, so a transition that changes only `updatedAt` never changes
the derived dirty flag. -/
theorem computeHash_ignores_metadata (d₁ d₂ : FamilyData)
    (hpeople : d₁.people = d₂.people) :
    computeHash d₁ = computeHash d₂ ∧
      ∀ baselineHash, dirtyFlag d₁ baselineHash = dirtyFlag d₂ baselineHash := by
  have h : computeHash d₁ = computeHash d₂ := by
    simp only [computeHash, hpeople]
  exact ⟨h, fun baselineHash => by simp only [dirtyFlag, h]⟩

/-- Witness for C10 at a concrete input: same single-person list, different
`version` and `updatedAt`. -/
theorem computeHash_ignores_metadata_witness :
    computeHash ⟨1, "2024-01-01T00:00:00Z", [{ id := "a", firstName := "Ann" }]⟩
        = computeHash ⟨2, "2025-06-06T12:00:00Z", [{ id := "a", firstName := "Ann" }]⟩ ∧
      ∀ baselineHash,
        dirtyFlag ⟨1, "2024-01-01T00:00:00Z", [{ id := "a", firstName := "Ann" }]⟩ baselineHash
          = dirtyFlag ⟨2, "2025-06-06T12:00:00Z", [{ id := "a", firstName := "Ann" }]⟩
              baselineHash :=
  computeHash_ignores_metadata _ _ rfl

/-- A JSON value, for modelling `validateFamilyData`'s checks on parsed
`unknown` input. -/
inductive JValue where
  | jnull : JValue
  | jbool : Bool → JValue
  | jnum : Int → JValue
  | jstr : String → JValue
  | jarr : List JValue → JValue
  | jobj : List (String × JValue) → JValue

/-- Property lookup on a JSON object. -/
def jGet (fields : List (String × JValue)) (key : String) : Option JValue :=
  (fields.find? (fun e => e.1 = key)).map (fun e => e.2)

/-- The per-person shape check inside `validateFamilyData`:
`typeof p === 'object' && p !== null`, string `id`, string `firstName`,
array `parentIds`.  (`siblingIds` is only migrated — defaulted to `[]` when
absent — never rejected, and no length check is made on `parentIds`.)
A JSON array is a JS object whose `id` lookup yields `undefined`, so it
fails the `id` check. -/
def validPersonShape (p : JValue) : Bool :=
  match p with
  | .jobj fields =>
    (match jGet fields "id" with | some (.jstr _) => true | _ => false) &&
      (match jGet fields "firstName" with | some (.jstr _) => true | _ => false) &&
      (match jGet fields "parentIds" with | some (.jarr _) => true | _ => false)
  | _ => false

/-- `validateFamilyData` from persistence.ts, as a boolean predicate on the
parsed JSON document.  (The in-place `siblingIds := []` migration does not
affect the boolean outcome and is not modelled.)  A top-level JSON array is
`typeof 'object'` in JS but its `version` lookup is `undefined`, so it is
rejected, as are all non-objects. -/
def validateFamilyData (v : JValue) : Bool :=
  match v with
  | .jobj fields =>
    (match jGet fields "version" with | some (.jnum 1) => true | _ => false) &&
      (match jGet fields "updatedAt" with | some (.jstr _) => true | _ => false) &&
      (match jGet fields "people" with
        | some (.jarr ps) => ps.all validPersonShape
        | _ => false)
  | _ => false

/-- The lengths of the `parentIds` arrays of the people in a document. -/
def peopleParentCounts (v : JValue) : List Nat :=
  match v with
  | .jobj fields =>
    match jGet fields "people" with
    | some (.jarr ps) =>
      ps.map (fun p =>
        match p with
        | .jobj pf => match jGet pf "parentIds" with
          | some (.jarr xs) => xs.length
          | _ => 0
        | _ => 0)
    | _ => []
  | _ => []

/-- A syntactically valid family-tree document whose only person has three
parent ids. -/
def threeParentDoc : JValue :=
  .jobj [("version", .jnum 1), ("updatedAt", .jstr "2024-01-01T00:00:00Z"),
    ("people", .jarr [.jobj [("id", .jstr "p1"), ("firstName", .jstr "Paul"),
      ("parentIds", .jarr [.jstr "a", .jstr "b", .jstr "c"]),
      ("siblingIds", .jarr [])]])]

/-- C7, counterexample.  `validateFamilyData` performs no cardinality check
on `parentIds`: a document whose person has three parent ids passes the
JSON-import validation, so an imported state can have a person with more
than 2 entries in `parentIds`. -/
theorem import_admits_three_parents :
    validateFamilyData threeParentDoc = true ∧ peopleParentCounts threeParentDoc = [3] := by
  refine ⟨by decide, by decide⟩

/-! ## Mutation orchestrator (src/App.tsx)

`handleSavePerson` and `handleDeletePerson` are modelled on the `people`
array; the surrounding `mutate` wrapper only fires persistence side effects
and refreshes `updatedAt`, neither of which touches `people`.  The JS
pattern `const idx = arr.findIndex(...); if (idx >= 0) arr[idx] = f(arr[idx])`
is captured by `updateById` (conditions that guard the assignment are folded
into `f`, returning the element unchanged when they fail). -/

/-- `ModalContext` from PersonModal.tsx. -/
structure ModalContext where
  linkAsParentOf : Option String := none
  presetParentIds : Option (List String) := none
  linkAsSiblingOf : Option String := none
deriving DecidableEq, Repr

/-- Find-by-id-and-replace, the `findIndex` / `arr[idx] = ...` pattern. -/
def updateById (l : List Person) (i : String) (f : Person → Person) : List Person :=
  match l.findIdx? (fun p => p.id = i) with
  | some idx =>
    match l[idx]? with
    | some p => l.set idx (f p)
    | none => l
  | none => l

/-- Step 1 of `handleSavePerson`: replace the person with the same id, or
push the new person at the end. -/
def upsertPerson (l : List Person) (person : Person) : List Person :=
  match l.findIdx? (fun p => p.id = person.id) with
  | some idx => l.set idx person
  | none => l ++ [person]

/-- Step 2 of `handleSavePerson` — the "Create New Parent" flow: link the
saved person as a parent of `ctx.linkAsParentOf`, but only when absent and
when the target still has fewer than 2 parents. -/
def applyParentLink (l : List Person) (person : Person) (ctx : ModalContext) : List Person :=
  match ctx.linkAsParentOf with
  | none => l
  | some t =>
    updateById l t (fun target =>
      if person.id ∉ target.parentIds ∧ target.parentIds.length < 2 then
        { target with parentIds := target.parentIds ++ [person.id] }
      else target)

/-- Step 3 of `handleSavePerson` — the "Add Sibling" flow: add the saved
person to the target's `siblingIds` (if absent), then add the reverse link
on the saved person (if absent). -/
def applySiblingLink (l : List Person) (person : Person) (ctx : ModalContext) : List Person :=
  match ctx.linkAsSiblingOf with
  | none => l
  | some s =>
    let l₁ := updateById l s (fun target =>
      if person.id ∉ target.siblingIds then
        { target with siblingIds := target.siblingIds ++ [person.id] }
      else target)
    updateById l₁ person.id (fun p =>
      if s ∉ p.siblingIds then { p with siblingIds := p.siblingIds ++ [s] } else p)

/-- `sibIdx >= 0 && !newPeople[sibIdx].siblingIds.includes(person.id)`
followed by appending `person.id`. -/
def addIfAbsentSib (x : String) (p : Person) : Person :=
  if x ∈ p.siblingIds then p else { p with siblingIds := p.siblingIds ++ [x] }

/-- Step 4a of `handleSavePerson`: for each sibling the saved person claims,
add the reverse link on that sibling if absent. -/
def syncAddLoop (pid : String) (sibList : List String) (l : List Person) : List Person :=
  sibList.foldl (fun acc sibId => updateById acc sibId (addIfAbsentSib pid)) l

/-- One iteration of step 4b: visit index `i` of the live array; if the
person there still lists `pid` but is no longer in the saved person's
authoritative list, remove the stale reverse link. -/
def syncRemoveStep (pid : String) (curSibs : List String) (acc : List Person) (i : Nat) :
    List Person :=
  match acc[i]? with
  | none => acc
  | some other =>
    if other.id = pid then acc
    else if pid ∈ other.siblingIds ∧ other.id ∉ curSibs then
      updateById acc other.id (fun o =>
        { o with siblingIds := o.siblingIds.filter (fun sid => sid ≠ pid) })
    else acc

/-- Step 4b of `handleSavePerson`: the `for (const other of newPeople)`
loop, iterating the live array by index. -/
def syncRemoveLoop (pid : String) (curSibs : List String) (l : List Person) : List Person :=
  (List.range l.length).foldl (syncRemoveStep pid curSibs) l

/-- Step 4 of `handleSavePerson`: make the saved person's `siblingIds` the
authoritative source for its symmetric edges. -/
def syncSiblings (l : List Person) (pid : String) : List Person :=
  match l.find? (fun p => p.id = pid) with
  | none => l
  | some current => syncRemoveLoop pid current.siblingIds (syncAddLoop pid current.siblingIds l)

/-- `handleSavePerson` from App.tsx (the `people` transformation inside
`mutate`). -/
def handleSavePerson (person : Person) (ctx : ModalContext) (people : List Person) :
    List Person :=
  syncSiblings (applySiblingLink (applyParentLink (upsertPerson people person) person ctx)
    person ctx) person.id

/-- `handleDeletePerson` from App.tsx: drop the person, then filter its id
out of every remaining person's `parentIds` and `siblingIds`. -/
def handleDeletePerson (id : String) (people : List Person) : List Person :=
  (people.filter (fun p => p.id ≠ id)).map (fun p =>
    { p with parentIds := p.parentIds.filter (fun pid => pid ≠ id),
             siblingIds := p.siblingIds.filter (fun sid => sid ≠ id) })

/-- `handleParentToggle` from PersonModal.tsx: deselect if present,
otherwise add only when fewer than 2 parents are selected. -/
def handleParentToggle (id : String) (prev : List String) : List String :=
  if id ∈ prev then prev.filter (fun pid => pid ≠ id)
  else if prev.length ≥ 2 then prev
  else prev ++ [id]

/-- C3.  After `handleDeletePerson x people`: no person with id `x`
remains; no remaining person's `parentIds` or `siblingIds` contains `x`;
and every other person survives with all fields unchanged except that the
deleted id is filtered out of its parent/sibling lists — children are not
re-parented, they just lose that parent slot. -/
theorem handleDeletePerson_spec (x : String) (people : List Person) :
    (∀ q ∈ handleDeletePerson x people, q.id ≠ x ∧ x ∉ q.parentIds ∧ x ∉ q.siblingIds) ∧
      (∀ p ∈ people, p.id ≠ x →
        ∃ q ∈ handleDeletePerson x people, q.id = p.id ∧ q.firstName = p.firstName ∧
          q.lastName = p.lastName ∧ q.birth = p.birth ∧ q.death = p.death ∧
          q.photoDataUrl = p.photoDataUrl ∧ q.notes = p.notes ∧
          q.parentIds = p.parentIds.filter (fun pid => pid ≠ x) ∧
          q.siblingIds = p.siblingIds.filter (fun sid => sid ≠ x)) ∧
      (handleDeletePerson x people).length = (people.filter (fun p => p.id ≠ x)).length := by
  refine ⟨?_, ?_, ?_⟩
  · intro q hq
    rcases List.mem_map.1 hq with ⟨p, hp, rfl⟩
    have hpid : p.id ≠ x := by
      have := List.of_mem_filter hp
      simpa using this
    refine ⟨hpid, ?_, ?_⟩
    · intro hx
      have := List.of_mem_filter hx
      simp at this
    · intro hx
      have := List.of_mem_filter hx
      simp at this
  · intro p hp hpx
    refine ⟨{ p with parentIds := p.parentIds.filter (fun pid => pid ≠ x), siblingIds := p.siblingIds.filter (fun sid => sid ≠ x) }, ?_, ?_⟩
    · exact List.mem_map_of_mem _ (List.mem_filter.2 ⟨hp, by simpa using hpx⟩)
    · simp
  · simp only [handleDeletePerson, List.length_map]

/-- Concrete three-person graph used by the C3 witness. -/
def c3People : List Person :=
  [⟨"a", "Ann", none, none, none, none, [], ["b"], none⟩,
    ⟨"b", "Bob", none, none, none, none, [], ["a"], none⟩,
    ⟨"c", "Cid", none, none, none, none, ["a", "b"], [], none⟩]

/-- Witness for C3 at a concrete input: deleting "b" from `c3People`. -/
theorem handleDeletePerson_spec_witness :
    (∀ q ∈ handleDeletePerson "b" c3People,
        q.id ≠ "b" ∧ "b" ∉ q.parentIds ∧ "b" ∉ q.siblingIds) ∧
      (∀ p ∈ c3People, p.id ≠ "b" →
        ∃ q ∈ handleDeletePerson "b" c3People, q.id = p.id ∧ q.firstName = p.firstName ∧
          q.lastName = p.lastName ∧ q.birth = p.birth ∧ q.death = p.death ∧
          q.photoDataUrl = p.photoDataUrl ∧ q.notes = p.notes ∧
          q.parentIds = p.parentIds.filter (fun pid => pid ≠ "b") ∧
          q.siblingIds = p.siblingIds.filter (fun sid => sid ≠ "b")) ∧
      (handleDeletePerson "b" c3People).length
        = (c3People.filter (fun p => p.id ≠ "b")).length :=
  handleDeletePerson_spec "b" c3People

/-! ### Parent cardinality -/

/-- Any member of `updateById l i f` is a member of `l` or the image under
`f` of a member of `l`. -/
theorem mem_updateById {l : List Person} {i : String} {f : Person → Person} {q : Person}
    (hq : q ∈ updateById l i f) : q ∈ l ∨ ∃ p ∈ l, q = f p := by
  unfold updateById at hq
  split at hq
  · split at hq
    · next p hget =>
      rcases List.mem_or_eq_of_mem_set hq with h | rfl
      · exact Or.inl h
      · refine Or.inr ⟨p, ?_, rfl⟩
        obtain ⟨hlt, rfl⟩ := List.getElem?_eq_some_iff.1 hget
        exact List.getElem_mem hlt
    · exact Or.inl hq
  · exact Or.inl hq

/-- Predicate preservation for `updateById`. -/
theorem updateById_preserves {P : Person → Prop} {l : List Person} {i : String}
    {f : Person → Person} (hl : ∀ p ∈ l, P p) (hf : ∀ p ∈ l, P p → P (f p)) :
    ∀ q ∈ updateById l i f, P q := by
  intro q hq
  rcases mem_updateById hq with h | ⟨p, hp, rfl⟩
  · exact hl q h
  · exact hf p hp (hl p hp)

/-- Predicate preservation for `upsertPerson`. -/
theorem upsertPerson_preserves {P : Person → Prop} {l : List Person} {person : Person}
    (hl : ∀ p ∈ l, P p) (hperson : P person) :
    ∀ q ∈ upsertPerson l person, P q := by
  intro q hq
  unfold upsertPerson at hq
  match hidx : l.findIdx? (fun p => p.id = person.id) with
  | none =>
    rw [hidx] at hq
    rcases List.mem_append.1 hq with h | h
    · exact hl q h
    · rcases List.mem_singleton.1 h with rfl; exact hperson
  | some idx =>
    rw [hidx] at hq
    rcases List.mem_or_eq_of_mem_set hq with h | rfl
    · exact hl q h
    · exact hperson

/-- `HasAtMostTwoParents` for every person in the list. -/
def ParentsBounded (l : List Person) : Prop :=
  ∀ p ∈ l, p.parentIds.length ≤ 2

theorem syncAddLoop_preserves {pid : String} {sibList : List String} {l : List Person}
    (hl : ParentsBounded l) : ParentsBounded (syncAddLoop pid sibList l) := by
  unfold syncAddLoop
  induction sibList generalizing l with
  | nil => exact hl
  | cons s rest ih =>
    simp only [List.foldl_cons]
    apply ih
    apply updateById_preserves hl
    intro p _ hp
    unfold addIfAbsentSib
    split <;> simpa using hp

theorem syncRemoveStep_preserves {pid : String} {cur : List String} {acc : List Person}
    {i : Nat} (hl : ParentsBounded acc) : ParentsBounded (syncRemoveStep pid cur acc i) := by
  unfold syncRemoveStep
  match hget : acc[i]? with
  | none => exact hl
  | some other =>
    by_cases h1 : other.id = pid
    · simp only [if_pos h1]; exact hl
    · simp only [if_neg h1]
      split
      · apply updateById_preserves hl
        intro p _ hp
        simpa using hp
      · exact hl

theorem syncRemoveLoop_preserves {pid : String} {cur : List String} {l : List Person}
    (hl : ParentsBounded l) : ParentsBounded (syncRemoveLoop pid cur l) := by
  unfold syncRemoveLoop
  generalize List.range l.length = idxs
  induction idxs generalizing l with
  | nil => exact hl
  | cons i rest ih =>
    simp only [List.foldl_cons]
    exact ih (syncRemoveStep_preserves hl)

/-- C7, amended.  The mutation flows preserve the parent-cardinality bound:
`handleParentToggle` never grows a selection beyond 2; `handleSavePerson`
(with any modal context, so including the create-and-link flows, whose
parent-link step is guarded by `target.parentIds.length < 2`) keeps every
person at ≤ 2 parents provided the incoming graph and the saved person
respect the bound; and `handleDeletePerson` preserves the bound.  The
JSON-import validation, by contrast, does not enforce the bound (see the
counterexample named after admitting three parents above). -/
theorem parentCardinality_preserved (id : String) (prev : List String) (person : Person)
    (ctx : ModalContext) (x : String) (people : List Person)
    (hprev : prev.length ≤ 2) (hpeople : ParentsBounded people)
    (hperson : person.parentIds.length ≤ 2) :
    (handleParentToggle id prev).length ≤ 2 ∧
      ParentsBounded (handleSavePerson person ctx people) ∧
      ParentsBounded (handleDeletePerson x people) := by
  refine ⟨?_, ?_, ?_⟩
  · unfold handleParentToggle
    by_cases h1 : id ∈ prev
    · simp only [if_pos h1]
      exact le_trans (List.length_filter_le _ _) hprev
    · simp only [if_neg h1]
      by_cases h2 : prev.length ≥ 2
      · simp only [if_pos h2]; exact hprev
      · simp only [if_neg h2]
        simp only [List.length_append, List.length_cons, List.length_nil]
        omega
  · unfold handleSavePerson
    have h₁ : ParentsBounded (upsertPerson people person) :=
      upsertPerson_preserves hpeople hperson
    have h₂ : ParentsBounded (applyParentLink (upsertPerson people person) person ctx) := by
      unfold applyParentLink
      match ctx.linkAsParentOf with
      | none => exact h₁
      | some t =>
        apply updateById_preserves h₁
        intro p _ hp
        split
        · next hcond =>
          simp only [List.length_append, List.length_cons, List.length_nil]
          omega
        · exact hp
    have h₃ : ParentsBounded (applySiblingLink
        (applyParentLink (upsertPerson people person) person ctx) person ctx) := by
      unfold applySiblingLink
      match ctx.linkAsSiblingOf with
      | none => exact h₂
      | some s =>
        apply updateById_preserves
        · apply updateById_preserves h₂
          intro p _ hp
          split <;> simpa using hp
        · intro p _ hp
          split <;> simpa using hp
    unfold syncSiblings
    split
    · exact h₃
    · exact syncRemoveLoop_preserves (syncAddLoop_preserves h₃)
  · intro q hq
    rcases List.mem_map.1 hq with ⟨p, hp, rfl⟩
    exact le_trans (List.length_filter_le _ _)
      (hpeople p (List.mem_of_mem_filter hp))

/-- Witness for C7's amended theorem at concrete inputs: a toggle on a full
selection, a save in the create-and-link-as-parent flow against a
two-parent target, and a delete. -/
theorem parentCardinality_preserved_witness :
    (["p1", "p2"].length ≤ 2 ∧
        ParentsBounded c3People ∧
        (⟨"d", "Dee", none, none, none, none, ["a"], [], none⟩ : Person).parentIds.length ≤ 2) ∧
      ((handleParentToggle "p3" ["p1", "p2"]).length ≤ 2 ∧
        ParentsBounded (handleSavePerson ⟨"d", "Dee", none, none, none, none, ["a"], [], none⟩
          ⟨some "c", none, none⟩ c3People) ∧
        ParentsBounded (handleDeletePerson "a" c3People)) :=
  ⟨⟨by decide, by unfold ParentsBounded; decide, by decide⟩,
    parentCardinality_preserved "p3" ["p1", "p2"]
      ⟨"d", "Dee", none, none, none, none, ["a"], [], none⟩ ⟨some "c", none, none⟩ "a" c3People
      (by decide) (by unfold ParentsBounded; decide) (by decide)⟩

/-! ### Sibling symmetry

Strategy: under the unique-id invariant, each `findIndex`-and-assign is the
pointwise map rewriting the unique entry with the matched id, the step-4a
fold is the map that adds the reverse link on every claimed sibling, and
the step-4b live-array loop is the map that strips stale reverse links.
Composing the maps yields, for the final graph: the saved person's entry
carries its authoritative list `L`, every other entry contains the saved id
iff its own id is in `L`, and membership of any other id is untouched —
from which symmetry follows. -/

/-- Two members of a list with unique ids and equal ids are equal. -/
theorem eq_of_mem_of_id_eq {l : List Person} (hnd : (l.map Person.id).Nodup)
    {a b : Person} (ha : a ∈ l) (hb : b ∈ l) (hid : a.id = b.id) : a = b := by
  have hpw : l.Pairwise (fun p q => p.id ≠ q.id) := List.pairwise_map.1 hnd
  by_contra hne
  exact hpw.forall (fun p q h => Ne.symm h) ha hb hne hid

/-- Replacing an entry by one with the same id leaves the id projection
unchanged. -/
theorem ids_set {l : List Person} {j : Nat} {q q' : Person}
    (hget : l[j]? = some q) (hid : q'.id = q.id) :
    (l.set j q').map Person.id = l.map Person.id := by
  apply List.ext_getElem?
  intro n
  by_cases hjn : j = n
  · subst hjn
    have hlt : j < l.length := by
      rcases List.getElem?_eq_some_iff.1 hget with ⟨h, _⟩
      exact h
    rw [List.getElem?_map, List.getElem?_map, List.getElem?_set, if_pos rfl, if_pos hlt, hget]
    simp [hid]
  · rw [List.getElem?_map, List.getElem?_map, List.getElem?_set, if_neg hjn]

/-- Under unique ids, rewriting the unique entry whose id matches is the
same as a positional `set` at that entry. -/
theorem map_ite_eq_set {l : List Person} {j : Nat} {q : Person} (f : Person → Person)
    (hnd : (l.map Person.id).Nodup) (hget : l[j]? = some q) :
    l.map (fun p => if p.id = q.id then f p else p) = l.set j (f q) := by
  have hlt : j < l.length := by
    rcases List.getElem?_eq_some_iff.1 hget with ⟨h, _⟩
    exact h
  apply List.ext_getElem?
  intro n
  rw [List.getElem?_map, List.getElem?_set]
  by_cases hjn : j = n
  · subst hjn
    rw [if_pos rfl, if_pos hlt, hget]
    simp
  · rw [if_neg hjn]
    match hn : l[n]? with
    | none => simp
    | some r =>
      have hne : ¬ r.id = q.id := by
        intro hr
        apply hjn
        have hmapn : (l.map Person.id)[n]? = some q.id := by
          rw [List.getElem?_map, hn, Option.map_some']
          exact congrArg some hr
        have hmapj : (l.map Person.id)[j]? = some q.id := by
          rw [List.getElem?_map, hget, Option.map_some']
        exact List.getElem?_inj (by simpa using hlt) hnd (hmapj.trans hmapn.symm)
      simp [hne]

/-- Under unique ids, an entry read positionally is found by `findIndex` at
exactly that position. -/
theorem findIdx?_eq_of_getElem? {l : List Person} {j : Nat} {q : Person}
    (hnd : (l.map Person.id).Nodup) (hget : l[j]? = some q) :
    l.findIdx? (fun p => p.id = q.id) = some j := by
  have hlt : j < l.length := by
    rcases List.getElem?_eq_some_iff.1 hget with ⟨h, _⟩
    exact h
  rw [List.findIdx?_eq_some_iff_getElem]
  obtain ⟨hlt', rfl⟩ := List.getElem?_eq_some_iff.1 hget
  refine ⟨hlt, by simp, ?_⟩
  intro k hk
  simp only [decide_eq_true_eq]
  intro heq
  have hmapk : (l.map Person.id)[k]? = some l[j].id := by
    rw [List.getElem?_map, List.getElem?_eq_getElem (Nat.lt_trans hk hlt)]
    simpa using heq
  have hmapj : (l.map Person.id)[j]? = some l[j].id := by
    rw [List.getElem?_map, List.getElem?_eq_getElem hlt]
    simp
  have := List.getElem?_inj (by simpa using Nat.lt_trans hk hlt) hnd (hmapk.trans hmapj.symm)
  omega

/-- Under unique ids, `updateById` is the map that rewrites the unique
matching entry (and the identity when no entry matches). -/
theorem updateById_eq_map {l : List Person} {i : String} {f : Person → Person}
    (hnd : (l.map Person.id).Nodup) :
    updateById l i f = l.map (fun p => if p.id = i then f p else p) := by
  unfold updateById
  match hidx : l.findIdx? (fun p => p.id = i) with
  | none =>
    have hno : ∀ p ∈ l, ¬ p.id = i := by
      intro p hp
      have := List.findIdx?_eq_none_iff.1 hidx p hp
      simpa using this
    have hcongr : ∀ p ∈ l, (if p.id = i then f p else p) = p := by
      intro p hp
      rw [if_neg (hno p hp)]
    rw [hidx, List.map_congr_left hcongr]
    exact (List.map_id' l).symm
  | some idx =>
    have hlt : idx < l.length := (List.findIdx?_eq_some_iff_getElem.1 hidx).1
    have hget : l[idx]? = some l[idx] := List.getElem?_eq_getElem hlt
    have hqid : l[idx].id = i := by
      have := (List.findIdx?_eq_some_iff_getElem.1 hidx).2.1
      simpa using this
    rw [hidx]
    show (match l[idx]? with
      | some p => l.set idx (f p)
      | none => l) = List.map (fun p => if p.id = i then f p else p) l
    rw [hget]
    have hms := map_ite_eq_set f hnd hget
    rw [hqid] at hms
    exact hms.symm

theorem addIfAbsentSib_id (x : String) (p : Person) : (addIfAbsentSib x p).id = p.id := by
  unfold addIfAbsentSib
  split <;> rfl

theorem addIfAbsentSib_idem (x : String) (p : Person) :
    addIfAbsentSib x (addIfAbsentSib x p) = addIfAbsentSib x p := by
  by_cases h : x ∈ p.siblingIds
  · simp [addIfAbsentSib, h]
  · simp [addIfAbsentSib, h, List.mem_append]

/-- `updateById` never changes the id projection (for id-preserving `f`). -/
theorem ids_updateById {l : List Person} {i : String} {f : Person → Person}
    (hf : ∀ p, (f p).id = p.id) :
    (updateById l i f).map Person.id = l.map Person.id := by
  unfold updateById
  split
  · split
    · next p hget => exact ids_set hget (hf p)
    · rfl
  · rfl

/-- When a person with the saved id exists, the upsert rewrites the unique
matching entry. -/
theorem upsertPerson_eq_map {l : List Person} {person : Person}
    (hnd : (l.map Person.id).Nodup) (hmem : person.id ∈ l.map Person.id) :
    upsertPerson l person = l.map (fun p => if p.id = person.id then person else p) := by
  unfold upsertPerson
  match hidx : l.findIdx? (fun p => p.id = person.id) with
  | none =>
    exfalso
    rcases List.mem_map.1 hmem with ⟨p, hp, hpid⟩
    have := List.findIdx?_eq_none_iff.1 hidx p hp
    simp [hpid] at this
  | some idx =>
    rw [hidx]
    have hlt : idx < l.length := (List.findIdx?_eq_some_iff_getElem.1 hidx).1
    have hget : l[idx]? = some l[idx] := List.getElem?_eq_getElem hlt
    have hqid : l[idx].id = person.id := by
      have := (List.findIdx?_eq_some_iff_getElem.1 hidx).2.1
      simpa using this
    have hms := map_ite_eq_set (fun _ => person) hnd hget
    rw [hqid] at hms
    exact hms.symm

/-- When no person with the saved id exists, the upsert appends. -/
theorem upsertPerson_eq_append {l : List Person} {person : Person}
    (hmem : person.id ∉ l.map Person.id) :
    upsertPerson l person = l ++ [person] := by
  unfold upsertPerson
  match hidx : l.findIdx? (fun p => p.id = person.id) with
  | none => rw [hidx]
  | some idx =>
    exfalso
    have hlt : idx < l.length := (List.findIdx?_eq_some_iff_getElem.1 hidx).1
    have hqid : l[idx].id = person.id := by
      have := (List.findIdx?_eq_some_iff_getElem.1 hidx).2.1
      simpa using this
    exact hmem (hqid ▸ List.mem_map_of_mem Person.id (List.getElem_mem hlt))

/-- Step 4a under unique ids: add the reverse link on every entry whose id
is in the authoritative list. -/
theorem syncAddLoop_eq_map {pid : String} {sibs : List String} {l : List Person}
    (hnd : (l.map Person.id).Nodup) :
    syncAddLoop pid sibs l
      = l.map (fun p => if p.id ∈ sibs then addIfAbsentSib pid p else p) := by
  induction sibs generalizing l with
  | nil =>
    unfold syncAddLoop
    simp
  | cons s rest ih =>
    have hid1 : ∀ p : Person, ((fun p => if p.id = s then addIfAbsentSib pid p else p) p).id
        = p.id := by
      intro p
      by_cases h : p.id = s
      · simp [h, addIfAbsentSib_id]
      · simp [h]
    have h1 : updateById l s (addIfAbsentSib pid)
        = l.map (fun p => if p.id = s then addIfAbsentSib pid p else p) :=
      updateById_eq_map hnd
    have hnd' : ((l.map (fun p => if p.id = s then addIfAbsentSib pid p else p)).map
        Person.id).Nodup := by
      rw [List.map_map]
      have : (Person.id ∘ fun p => if p.id = s then addIfAbsentSib pid p else p)
          = Person.id := by
        funext p
        exact hid1 p
      rw [this]
      exact hnd
    unfold syncAddLoop at *
    rw [List.foldl_cons, h1, ih hnd', List.map_map]
    apply List.map_congr_left
    intro p hp
    simp only [Function.comp_apply]
    by_cases hs : p.id = s
    · by_cases hr : s ∈ rest
      · simp [hs, hr, addIfAbsentSib_id, addIfAbsentSib_idem]
      · simp [hs, hr, addIfAbsentSib_id]
    · by_cases hr : p.id ∈ rest
      · simp [hs, hr]
      · simp [hs, hr]

/-- The per-entry effect of step 4b: strip the stale reverse link from an
entry that still lists the saved person but is no longer listed back. -/
def removeStaleSib (pid : String) (cur : List String) (p : Person) : Person :=
  if p.id ≠ pid ∧ pid ∈ p.siblingIds ∧ p.id ∉ cur then
    { p with siblingIds := p.siblingIds.filter (fun sid => sid ≠ pid) }
  else p

theorem removeStaleSib_id (pid : String) (cur : List String) (p : Person) :
    (removeStaleSib pid cur p).id = p.id := by
  unfold removeStaleSib
  split <;> rfl

theorem ids_syncRemoveStep {pid : String} {cur : List String} {l : List Person} {k : Nat} :
    (syncRemoveStep pid cur l k).map Person.id = l.map Person.id := by
  unfold syncRemoveStep
  split
  · rfl
  · split
    · rfl
    · split
      · exact ids_updateById (fun p => rfl)
      · rfl

/-- The per-index behaviour of one step of the 4b loop, under unique ids:
only index `k` changes, and it changes by `removeStaleSib`. -/
theorem syncRemoveStep_getElem {pid : String} {cur : List String} {l : List Person}
    (hnd : (l.map Person.id).Nodup) (k j : Nat) :
    (syncRemoveStep pid cur l k)[j]?
      = if j = k then (l[j]?).map (removeStaleSib pid cur) else l[j]? := by
  unfold syncRemoveStep
  match hget : l[k]? with
  | none =>
    by_cases hjk : j = k
    · subst hjk
      simp only [hget]
      simp
    · simp only [hget, if_neg hjk]
  | some other =>
    simp only [hget]
    by_cases h1 : other.id = pid
    · rw [if_pos h1]
      by_cases hjk : j = k
      · subst hjk
        rw [hget, if_pos rfl, Option.map_some']
        have : removeStaleSib pid cur other = other := by
          unfold removeStaleSib
          rw [if_neg (by simp [h1])]
        rw [this]
      · rw [if_neg hjk]
    · rw [if_neg h1]
      by_cases h2 : pid ∈ other.siblingIds ∧ other.id ∉ cur
      · rw [if_pos h2]
        unfold updateById
        rw [findIdx?_eq_of_getElem? hnd hget]
        simp only [hget]
        have hlt : k < l.length := by
          rcases List.getElem?_eq_some_iff.1 hget with ⟨h, _⟩
          exact h
        rw [List.getElem?_set]
        by_cases hjk : j = k
        · subst hjk
          rw [if_pos rfl, if_pos hlt, hget, Option.map_some']
          have : removeStaleSib pid cur other
              = { other with siblingIds := other.siblingIds.filter (fun sid => sid ≠ pid) } := by
            unfold removeStaleSib
            rw [if_pos ⟨h1, h2.1, h2.2⟩]
          rw [this, if_pos rfl]
        · rw [if_neg (fun h => hjk h.symm), if_neg hjk]
      · rw [if_neg h2]
        by_cases hjk : j = k
        · subst hjk
          rw [hget, if_pos rfl, Option.map_some']
          have : removeStaleSib pid cur other = other := by
            unfold removeStaleSib
            rw [if_neg (by
              intro hcond
              exact h2 ⟨hcond.2.1, hcond.2.2⟩)]
          rw [this]
        · rw [if_neg hjk]

/-- The per-index behaviour of the 4b loop restricted to indices
`[k, k + m)`. -/
theorem syncRemoveFold_getElem {pid : String} {cur : List String} :
    ∀ (m k : Nat) (l : List Person), (l.map Person.id).Nodup → ∀ (j : Nat),
      ((List.range' k m).foldl (syncRemoveStep pid cur) l)[j]?
        = if k ≤ j ∧ j < k + m then (l[j]?).map (removeStaleSib pid cur) else l[j]? := by
  intro m
  induction m with
  | zero =>
    intro k l hnd j
    rw [if_neg (by omega)]
    rfl
  | succ m ih =>
    intro k l hnd j
    rw [List.range'_succ, List.foldl_cons]
    have hnd' : ((syncRemoveStep pid cur l k).map Person.id).Nodup := by
      rw [ids_syncRemoveStep]
      exact hnd
    rw [ih (k + 1) _ hnd' j, syncRemoveStep_getElem hnd k j]
    by_cases hjk : j = k
    · subst hjk
      rw [if_neg (by omega), if_pos rfl, if_pos (by omega)]
    · by_cases hrange : k + 1 ≤ j ∧ j < k + 1 + m
      · rw [if_pos hrange, if_neg hjk, if_pos (by omega)]
      · rw [if_neg hrange, if_neg hjk, if_neg (by omega)]

/-- Step 4b under unique ids, as a map. -/
theorem syncRemoveLoop_eq_map {pid : String} {cur : List String} {l : List Person}
    (hnd : (l.map Person.id).Nodup) :
    syncRemoveLoop pid cur l = l.map (removeStaleSib pid cur) := by
  unfold syncRemoveLoop
  rw [List.range_eq_range']
  apply List.ext_getElem?
  intro j
  rw [syncRemoveFold_getElem _ _ _ hnd j, List.getElem?_map]
  by_cases hj : j < l.length
  · rw [if_pos ⟨Nat.zero_le j, by simpa using hj⟩]
  · rw [if_neg (by omega)]
    rw [List.getElem?_eq_none (by omega)]
    simp

/-- Variant of `mem_updateById` that remembers that the rewritten entry
matched the searched id. -/
theorem mem_updateById_strong {l : List Person} {i : String} {f : Person → Person} {q : Person}
    (hq : q ∈ updateById l i f) : q ∈ l ∨ ∃ p ∈ l, p.id = i ∧ q = f p := by
  unfold updateById at hq
  match hidx : l.findIdx? (fun p => p.id = i) with
  | none => rw [hidx] at hq; exact Or.inl hq
  | some idx =>
    rw [hidx] at hq
    have hlt : idx < l.length := (List.findIdx?_eq_some_iff_getElem.1 hidx).1
    have hget : l[idx]? = some l[idx] := List.getElem?_eq_getElem hlt
    have hqid : l[idx].id = i := by
      have := (List.findIdx?_eq_some_iff_getElem.1 hidx).2.1
      simpa using this
    simp only [hget] at hq
    rcases List.mem_or_eq_of_mem_set hq with h | rfl
    · exact Or.inl h
    · exact Or.inr ⟨l[idx], List.getElem_mem hlt, hqid, rfl⟩

theorem ids_applyParentLink {l : List Person} {person : Person} {ctx : ModalContext} :
    (applyParentLink l person ctx).map Person.id = l.map Person.id := by
  unfold applyParentLink
  match ctx.linkAsParentOf with
  | none => rfl
  | some t =>
    apply ids_updateById
    intro p
    split <;> rfl

theorem ids_applySiblingLink {l : List Person} {person : Person} {ctx : ModalContext} :
    (applySiblingLink l person ctx).map Person.id = l.map Person.id := by
  unfold applySiblingLink
  match ctx.linkAsSiblingOf with
  | none => rfl
  | some s =>
    rw [ids_updateById, ids_updateById]
    · intro p; split <;> rfl
    · intro p; split <;> rfl

/-- Step 2 never touches sibling lists. -/
theorem sib_applyParentLink {l : List Person} {person : Person} {ctx : ModalContext} :
    ∀ q ∈ applyParentLink l person ctx, ∃ p ∈ l, q.id = p.id ∧
      q.siblingIds = p.siblingIds := by
  intro q hq
  unfold applyParentLink at hq
  match hctx : ctx.linkAsParentOf with
  | none =>
    rw [hctx] at hq
    exact ⟨q, hq, rfl, rfl⟩
  | some t =>
    rw [hctx] at hq
    rcases mem_updateById_strong hq with h | ⟨p, hp, hpid, rfl⟩
    · exact ⟨q, h, rfl, rfl⟩
    · refine ⟨p, hp, ?_, ?_⟩ <;> split <;> rfl

/-- Steps 1–3 leave every non-saved entry's sibling list unchanged up to
membership of the saved id. -/
theorem sib_applySiblingLink {l : List Person} {person : Person} {ctx : ModalContext} :
    ∀ q ∈ applySiblingLink l person ctx, q.id ≠ person.id → ∃ p ∈ l, q.id = p.id ∧
      ∀ x, x ≠ person.id → (x ∈ q.siblingIds ↔ x ∈ p.siblingIds) := by
  intro q hq hqid
  unfold applySiblingLink at hq
  match hctx : ctx.linkAsSiblingOf with
  | none =>
    rw [hctx] at hq
    exact ⟨q, hq, rfl, fun x _ => Iff.rfl⟩
  | some s =>
    rw [hctx] at hq
    rcases mem_updateById_strong hq with h | ⟨p, hp, hpid, rfl⟩
    · rcases mem_updateById_strong h with h₂ | ⟨p, hp₂, hpid₂, rfl⟩
      · exact ⟨q, h₂, rfl, fun x _ => Iff.rfl⟩
      · by_cases hmem : person.id ∈ p.siblingIds
        · refine ⟨p, hp₂, ?_, ?_⟩
          · rw [if_neg (fun hc => hc hmem)]
          · intro x hx
            rw [if_neg (fun hc => hc hmem)]
        · refine ⟨p, hp₂, ?_, ?_⟩
          · rw [if_pos hmem]
          · intro x hx
            rw [if_pos hmem]
            simp only [List.mem_append, List.mem_singleton]
            exact ⟨fun h => h.elim id (fun hxp => absurd hxp hx), fun h => Or.inl h⟩
    · exfalso
      apply hqid
      split <;> exact hpid

theorem ids_map_of_id {l : List Person} {g : Person → Person}
    (hg : ∀ p ∈ l, (g p).id = p.id) :
    (l.map g).map Person.id = l.map Person.id := by
  rw [List.map_map]
  exact List.map_congr_left hg

theorem mem_upsert_ne {l : List Person} {person : Person} :
    ∀ q ∈ upsertPerson l person, q.id ≠ person.id → q ∈ l := by
  intro q hq hne
  unfold upsertPerson at hq
  match hidx : l.findIdx? (fun p => p.id = person.id) with
  | none =>
    rw [hidx] at hq
    rcases List.mem_append.1 hq with h | h
    · exact h
    · rcases List.mem_singleton.1 h with rfl
      exact absurd rfl hne
  | some idx =>
    rw [hidx] at hq
    rcases List.mem_or_eq_of_mem_set hq with h | rfl
    · exact h
    · exact absurd rfl hne

theorem upsert_ids_facts {l : List Person} {person : Person}
    (hnd : (l.map Person.id).Nodup) :
    ((upsertPerson l person).map Person.id).Nodup ∧
      person.id ∈ (upsertPerson l person).map Person.id := by
  by_cases hmem : person.id ∈ l.map Person.id
  · rw [upsertPerson_eq_map hnd hmem]
    have hg : ∀ p ∈ l, ((fun p => if p.id = person.id then person else p) p).id = p.id := by
      intro p _
      by_cases h : p.id = person.id
      · simp [h]
      · simp [h]
    rw [ids_map_of_id hg]
    exact ⟨hnd, hmem⟩
  · rw [upsertPerson_eq_append hmem]
    rw [List.map_append]
    constructor
    · rw [List.nodup_append]
      refine ⟨hnd, List.nodup_singleton _, ?_⟩
      intro x hx hx'
      rcases List.mem_singleton.1 hx' with rfl
      exact hmem hx
    · simp

/-- Sibling symmetry of a person list: `B ∈ A.siblingIds ⟺ A ∈ B.siblingIds`
for all persons `A`, `B` present. -/
def SiblingSymmetric (l : List Person) : Prop :=
  ∀ a ∈ l, ∀ b ∈ l, (b.id ∈ a.siblingIds ↔ a.id ∈ b.siblingIds)

/-- Saving a person (with any modal context) restores sibling symmetry. -/
theorem handleSavePerson_symmetric (person : Person) (ctx : ModalContext)
    (people : List Person) (hnd : (people.map Person.id).Nodup)
    (hsym : SiblingSymmetric people) :
    SiblingSymmetric (handleSavePerson person ctx people) := by
  obtain ⟨hnd₁, hmem₁⟩ := @upsert_ids_facts people person hnd
  have hnd₂ : ((applyParentLink (upsertPerson people person) person ctx).map Person.id).Nodup := by
    rw [ids_applyParentLink]; exact hnd₁
  have hmem₂ : person.id ∈ (applyParentLink (upsertPerson people person) person ctx).map
      Person.id := by
    rw [ids_applyParentLink]; exact hmem₁
  set l₃ := applySiblingLink (applyParentLink (upsertPerson people person) person ctx)
    person ctx with hl₃
  have hnd₃ : (l₃.map Person.id).Nodup := by
    rw [hl₃, ids_applySiblingLink]; exact hnd₂
  have hmem₃ : person.id ∈ l₃.map Person.id := by
    rw [hl₃, ids_applySiblingLink]; exact hmem₂
  -- the saved person's entry after steps 1-3
  have hfind : (l₃.find? (fun p => p.id = person.id)).isSome := by
    rw [List.find?_isSome]
    rcases List.mem_map.1 hmem₃ with ⟨p, hp, hpid⟩
    exact ⟨p, hp, by simpa using hpid⟩
  obtain ⟨current, hcur⟩ := Option.isSome_iff_exists.1 hfind
  have hcur_mem : current ∈ l₃ := List.mem_of_find?_eq_some hcur
  have hcur_id : current.id = person.id := by
    have := List.find?_some hcur
    simpa using this
  -- the final graph is a pointwise map of l₃
  have hF : handleSavePerson person ctx people
      = l₃.map (fun p => removeStaleSib person.id current.siblingIds
          (if p.id ∈ current.siblingIds then addIfAbsentSib person.id p else p)) := by
    unfold handleSavePerson syncSiblings
    rw [← hl₃, hcur]
    show syncRemoveLoop person.id current.siblingIds (syncAddLoop person.id current.siblingIds l₃)
        = List.map (fun p => removeStaleSib person.id current.siblingIds
            (if p.id ∈ current.siblingIds then addIfAbsentSib person.id p else p)) l₃
    have hga : ∀ p ∈ l₃,
        ((fun p => if p.id ∈ current.siblingIds then addIfAbsentSib person.id p else p) p).id
          = p.id := by
      intro p _
      by_cases h : p.id ∈ current.siblingIds
      · simp [h, addIfAbsentSib_id]
      · simp [h]
    have hnd₄ : ((l₃.map (fun p =>
        if p.id ∈ current.siblingIds then addIfAbsentSib person.id p else p)).map
          Person.id).Nodup := by
      rw [ids_map_of_id hga]; exact hnd₃
    rw [syncAddLoop_eq_map hnd₃, syncRemoveLoop_eq_map hnd₄, List.map_map]
    rfl
  rw [hF]
  -- per-entry consequences of the two final maps
  have hGid : ∀ p : Person,
      (removeStaleSib person.id current.siblingIds
        (if p.id ∈ current.siblingIds then addIfAbsentSib person.id p else p)).id = p.id := by
    intro p
    by_cases h : p.id ∈ current.siblingIds
    · rw [if_pos h, removeStaleSib_id, addIfAbsentSib_id]
    · rw [if_neg h, removeStaleSib_id]
  have hPidEntry : ∀ p ∈ l₃, p.id = person.id →
      removeStaleSib person.id current.siblingIds
        (if p.id ∈ current.siblingIds then addIfAbsentSib person.id p else p) = current := by
    intro p hp hpid
    have hpc : p = current := eq_of_mem_of_id_eq hnd₃ hp hcur_mem (hpid.trans hcur_id.symm)
    subst hpc
    have hstep : (if p.id ∈ p.siblingIds then addIfAbsentSib person.id p else p) = p := by
      by_cases h : p.id ∈ p.siblingIds
      · rw [if_pos h]
        unfold addIfAbsentSib
        rw [if_pos (hpid ▸ h)]
      · rw [if_neg h]
    rw [hstep]
    unfold removeStaleSib
    rw [if_neg (by simp [hpid])]
  have hNon : ∀ p ∈ l₃, p.id ≠ person.id →
      (person.id ∈ (removeStaleSib person.id current.siblingIds
          (if p.id ∈ current.siblingIds then addIfAbsentSib person.id p else p)).siblingIds
        ↔ p.id ∈ current.siblingIds) ∧
      (∀ x, x ≠ person.id →
        ((x ∈ (removeStaleSib person.id current.siblingIds
            (if p.id ∈ current.siblingIds then addIfAbsentSib person.id p else p)).siblingIds)
          ↔ x ∈ p.siblingIds)) := by
    intro p hp hpne
    by_cases hin : p.id ∈ current.siblingIds
    · rw [if_pos hin]
      have hpidmem : person.id ∈ (addIfAbsentSib person.id p).siblingIds := by
        unfold addIfAbsentSib
        by_cases h : person.id ∈ p.siblingIds
        · rw [if_pos h]; exact h
        · rw [if_neg h]; simp
      have hrs : removeStaleSib person.id current.siblingIds (addIfAbsentSib person.id p)
          = addIfAbsentSib person.id p := by
        unfold removeStaleSib
        rw [if_neg (by
          intro hcond
          exact hcond.2.2 ((addIfAbsentSib_id person.id p) ▸ hin))]
      rw [hrs]
      refine ⟨by simp [hpidmem, hin], ?_⟩
      intro x hx
      unfold addIfAbsentSib
      by_cases h : person.id ∈ p.siblingIds
      · rw [if_pos h]
      · rw [if_neg h]
        simp only [List.mem_append, List.mem_singleton]
        exact ⟨fun h₂ => h₂.elim id (fun hxp => absurd hxp hx), fun h₂ => Or.inl h₂⟩
    · rw [if_neg hin]
      by_cases hmem : person.id ∈ p.siblingIds
      · have hrs : removeStaleSib person.id current.siblingIds p
            = { p with siblingIds := p.siblingIds.filter (fun sid => sid ≠ person.id) } := by
          unfold removeStaleSib
          rw [if_pos ⟨hpne, hmem, hin⟩]
        rw [hrs]
        constructor
        · simp [List.mem_filter, hin]
        · intro x hx
          simp [List.mem_filter, hx]
      · have hrs : removeStaleSib person.id current.siblingIds p = p := by
          unfold removeStaleSib
          rw [if_neg (fun hcond => hmem hcond.2.1)]
        rw [hrs]
        exact ⟨by simp [hmem, hin], fun x hx => Iff.rfl⟩
  -- provenance of non-saved entries: back to the input graph
  have hSrc : ∀ q ∈ l₃, q.id ≠ person.id → ∃ e ∈ people, e.id = q.id ∧
      ∀ x, x ≠ person.id → (x ∈ q.siblingIds ↔ x ∈ e.siblingIds) := by
    intro q hq hqne
    obtain ⟨p₂, hp₂, hqid₂, hiff₂⟩ := sib_applySiblingLink q hq hqne
    obtain ⟨p₁, hp₁, hqid₁, hsib₁⟩ := sib_applyParentLink p₂ hp₂
    have hp₁ne : p₁.id ≠ person.id := by
      rw [← hqid₁, ← hqid₂]; exact hqne
    have hp₀ : p₁ ∈ people := mem_upsert_ne p₁ hp₁ hp₁ne
    refine ⟨p₁, hp₀, by rw [← hqid₁, ← hqid₂], ?_⟩
    intro x hx
    rw [hiff₂ x hx, hsib₁]
  -- the symmetry argument
  intro a ha b hb
  obtain ⟨qa, hqa, hae⟩ := List.mem_map.1 ha
  obtain ⟨qb, hqb, hbe⟩ := List.mem_map.1 hb
  by_cases hqaid : qa.id = person.id <;> by_cases hqbid : qb.id = person.id
  · -- both are the saved person's entry
    rw [← hae, ← hbe, hPidEntry qa hqa hqaid, hPidEntry qb hqb hqbid]
  · -- a is the saved entry, b is not
    rw [← hae, hPidEntry qa hqa hqaid, ← hbe]
    have hb_id : (removeStaleSib person.id current.siblingIds
        (if qb.id ∈ current.siblingIds then addIfAbsentSib person.id qb else qb)).id
          = qb.id := hGid qb
    rw [hb_id, hcur_id]
    exact ((hNon qb hqb hqbid).1).symm
  · -- b is the saved entry, a is not
    rw [← hae, ← hbe, hPidEntry qb hqb hqbid]
    have ha_id : (removeStaleSib person.id current.siblingIds
        (if qa.id ∈ current.siblingIds then addIfAbsentSib person.id qa else qa)).id
          = qa.id := hGid qa
    rw [ha_id, hcur_id]
    exact (hNon qa hqa hqaid).1
  · -- neither is the saved entry
    obtain ⟨ea, hea, heaid, heaiff⟩ := hSrc qa hqa hqaid
    obtain ⟨eb, heb, hebid, hebiff⟩ := hSrc qb hqb hqbid
    rw [← hae, ← hbe]
    have ha_id : (removeStaleSib person.id current.siblingIds
        (if qa.id ∈ current.siblingIds then addIfAbsentSib person.id qa else qa)).id
          = qa.id := hGid qa
    have hb_id : (removeStaleSib person.id current.siblingIds
        (if qb.id ∈ current.siblingIds then addIfAbsentSib person.id qb else qb)).id
          = qb.id := hGid qb
    rw [ha_id, hb_id]
    have h₁ := (hNon qa hqa hqaid).2 qb.id hqbid
    have h₂ := (hNon qb hqb hqbid).2 qa.id hqaid
    rw [h₁, h₂, heaiff qb.id hqbid, hebiff qa.id hqaid, ← hebid, ← heaid]
    exact hsym ea hea eb heb

/-- Deleting a person preserves sibling symmetry. -/
theorem handleDeletePerson_symmetric (x : String) (people : List Person)
    (hsym : SiblingSymmetric people) :
    SiblingSymmetric (handleDeletePerson x people) := by
  intro a ha b hb
  obtain ⟨a₀, ha₀, hae⟩ := List.mem_map.1 ha
  obtain ⟨b₀, hb₀, hbe⟩ := List.mem_map.1 hb
  have ha₀p : a₀ ∈ people := List.mem_of_mem_filter ha₀
  have hb₀p : b₀ ∈ people := List.mem_of_mem_filter hb₀
  have ha₀x : a₀.id ≠ x := by simpa using List.of_mem_filter ha₀
  have hb₀x : b₀.id ≠ x := by simpa using List.of_mem_filter hb₀
  rw [← hae, ← hbe]
  simp only [List.mem_filter, decide_eq_true_eq]
  constructor
  · intro h
    exact ⟨(hsym a₀ ha₀p b₀ hb₀p).1 h.1, ha₀x⟩
  · intro h
    exact ⟨(hsym a₀ ha₀p b₀ hb₀p).2 h.1, hb₀x⟩

/-- C2.  Starting from a graph (unique ids, per the data-model invariant)
whose sibling links are symmetric, every mutation applied through the
orchestrator — saving a new or edited person, with any modal context
(none, create-and-link-as-parent, create-and-link-as-sibling), and deleting
a person — produces a graph whose sibling links are again symmetric. -/
theorem mutations_preserve_sibling_symmetry (person : Person) (ctx : ModalContext)
    (delId : String) (people : List Person)
    (hnd : (people.map Person.id).Nodup) (hsym : SiblingSymmetric people) :
    SiblingSymmetric (handleSavePerson person ctx people) ∧
      SiblingSymmetric (handleDeletePerson delId people) :=
  ⟨handleSavePerson_symmetric person ctx people hnd hsym,
    handleDeletePerson_symmetric delId people hsym⟩

/-- Witness for C2 at concrete inputs: the graph `c3People` (symmetric,
unique ids), a new person saved through the add-sibling flow, and a
delete. -/
theorem mutations_preserve_sibling_symmetry_witness :
    ((c3People.map Person.id).Nodup ∧ SiblingSymmetric c3People) ∧
      (SiblingSymmetric (handleSavePerson
          ⟨"d", "Dee", none, none, none, none, [], ["a"], none⟩
          ⟨none, none, some "c"⟩ c3People) ∧
        SiblingSymmetric (handleDeletePerson "a" c3People)) :=
  ⟨⟨by decide, by unfold SiblingSymmetric; decide⟩,
    mutations_preserve_sibling_symmetry
      ⟨"d", "Dee", none, none, none, none, [], ["a"], none⟩ ⟨none, none, some "c"⟩ "a" c3People
      (by decide) (by unfold SiblingSymmetric; decide)⟩

/-! ## Layout engine (src/TreeCanvas.tsx)

The layout coordinates are JS numbers; we model them as exact rationals.
Mathlib's `ℚ` arithmetic is `@[irreducible]` and cannot be evaluated by the
kernel, so coordinates use `Frac`, pairs `num/den` normalised after every
operation (positive denominator, reduced) — a canonical exact-rational
representation whose operations the kernel can compute.  IEEE-754 rounding
is not modelled; in particular the literals `0.3`/`0.7` of pass 3 are
modelled as the exact rationals 3/10 and 7/10. -/

/-- Stable insertion into a sorted list: the new element goes after every
existing element that sorts no later than it. -/
def insertSorted {α : Type} (le : α → α → Bool) (x : α) : List α → List α
  | [] => [x]
  | y :: ys => if le y x then y :: insertSorted le x ys else x :: y :: ys

/-- A stable sort by a boolean `le`.  JS `Array.prototype.sort` with a
consistent comparator is a stable sort, and a stable sort's output is the
unique stably-sorted permutation, so any stable sort models it; insertion
sort is used because the kernel can evaluate its structural recursion. -/
def stableSort {α : Type} (le : α → α → Bool) (l : List α) : List α :=
  l.foldl (fun acc y => insertSorted le y acc) []

/-- An exact rational coordinate: numerator and denominator. -/
structure Frac where
  num : Int
  den : Int
deriving DecidableEq, Repr

/-- Normalise: positive denominator, reduced by the gcd. -/
def Frac.norm (a : Frac) : Frac :=
  if a.num = 0 then ⟨0, 1⟩
  else
    let s : Int := if a.den < 0 then -1 else 1
    let n := a.num * s
    let d := a.den * s
    let g : Int := (n.natAbs.gcd d.natAbs : Nat)
    ⟨n / g, d / g⟩

def Frac.ofInt (n : Int) : Frac := ⟨n, 1⟩

def Frac.add (a b : Frac) : Frac := Frac.norm ⟨a.num * b.den + b.num * a.den, a.den * b.den⟩

def Frac.sub (a b : Frac) : Frac := Frac.norm ⟨a.num * b.den - b.num * a.den, a.den * b.den⟩

def Frac.mul (a b : Frac) : Frac := Frac.norm ⟨a.num * b.num, a.den * b.den⟩

/-- Division by a positive integer (layer sizes, the midpoint `/ 2`). -/
def Frac.divNat (a : Frac) (n : Nat) : Frac := Frac.norm ⟨a.num, a.den * n⟩

/-- Value-level `<` (cross multiplication; correct for positive
denominators, which normalisation guarantees). -/
def Frac.lt (a b : Frac) : Bool := a.num * b.den < b.num * a.den

/-- Value-level equality test (JS `!==` on numbers). -/
def Frac.beqVal (a b : Frac) : Bool := a.num * b.den == b.num * a.den

/-- `a ≤ b` as the comparator consistency requires. -/
def Frac.le (a b : Frac) : Bool := !(Frac.lt b a)

/-- JS `Math.min` on two values. -/
def Frac.minF (a b : Frac) : Frac := if Frac.lt b a then b else a

/-- JS `Math.max` on two values. -/
def Frac.maxF (a b : Frac) : Frac := if Frac.lt a b then b else a

/-- The rational value of a `Frac` (for use in statements only). -/
def Frac.toRat (a : Frac) : ℚ := (a.num : ℚ) / (a.den : ℚ)

/-- `Math.min(...xs)` over a non-empty list (the `[]` case is unused). -/
def listMinFrac : List Frac → Frac
  | [] => Frac.ofInt 0
  | x :: xs => xs.foldl Frac.minF x

/-- `Math.max(...xs)` over a non-empty list. -/
def listMaxFrac : List Frac → Frac
  | [] => Frac.ofInt 0
  | x :: xs => xs.foldl Frac.maxF x

/-- The x-position map (`xPos : Map<string, number>`), insertion-ordered. -/
abbrev XMap := List (String × Frac)

def xLookup (m : XMap) (i : String) : Option Frac :=
  (m.find? (fun e => e.1 = i)).map (fun e => e.2)

/-- `Map.set`: overwrite in place, or append a new entry. -/
def xSet (m : XMap) (k : String) (v : Frac) : XMap :=
  if m.any (fun e => e.1 = k) then m.map (fun e => if e.1 = k then (k, v) else e)
  else m ++ [(k, v)]

/-- The generation map (`gen : Map<string, number>`), insertion-ordered. -/
abbrev GenMap := List (String × Nat)

def genLookup (m : GenMap) (i : String) : Option Nat :=
  (m.find? (fun e => e.1 = i)).map (fun e => e.2)

def genSet (m : GenMap) (k : String) (v : Nat) : GenMap :=
  if m.any (fun e => e.1 = k) then m.map (fun e => if e.1 = k then (k, v) else e)
  else m ++ [(k, v)]

/-- `personMap.get`: a JS `Map` built from entries keeps the last entry per
key, hence the lookup on the reversed list (on unique ids this is the plain
`find?`). -/
def personFind (people : List Person) (i : String) : Option Person :=
  people.reverse.find? (fun p => p.id = i)

/-- Placeholder for `personMap.get(id)!` on an absent id — unreachable: the
layout only looks up ids of the input people. -/
def defaultPerson : Person := ⟨"", "", none, none, none, none, [], [], none⟩

def NODE_W : Int := 180
def GAP_H : Int := 50
def GAP_V : Int := 140

/-- The memoized recursive `compute` of `assignGenerations`, with the
per-call visiting set (the call stack) passed explicitly and the memo map
threaded.  The fuel bounds the recursion depth; `assignGenerations` passes
`people.length + 1`, which dominates the stack depth since every stack
entry is a distinct person id (the fuel-exhaustion fallback `(0, m)` is
unreachable, as the generation-recurrence proof below shows for acyclic
inputs, and as the visiting-set guard bounds in general). -/
def computeGen (people : List Person) : Nat → String → List String → GenMap → Nat × GenMap
  | 0, _, _, m => (0, m)
  | fuel + 1, id, visiting, m =>
    match genLookup m id with
    | some g => (g, m)
    | none =>
      if id ∈ visiting then (0, genSet m id 0)
      else
        match personFind people id with
        | none => (0, m)
        | some person =>
          let parents := person.parentIds.filter
            (fun pid => (people.map Person.id).contains pid)
          match parents with
          | [] => (0, genSet m id 0)
          | _ :: _ =>
            let r := parents.foldl (fun (acc : List Nat × GenMap) pid =>
              (acc.1 ++ [(computeGen people fuel pid (id :: visiting) acc.2).1],
                (computeGen people fuel pid (id :: visiting) acc.2).2)) ([], m)
            ((r.1.foldl Nat.max 0) + 1, genSet r.2 id ((r.1.foldl Nat.max 0) + 1))

/-- `assignGenerations` from TreeCanvas.tsx: run `compute` for every person
against one shared memo map. -/
def assignGenerations (people : List Person) : GenMap :=
  people.foldl (fun m p => (computeGen people (people.length + 1) p.id [] m).2) []

/-- `avgX` from TreeCanvas.tsx. -/
def avgX (idList : List String) (xm : XMap) : Frac :=
  let valid := idList.filter (fun i => (xLookup xm i).isSome)
  if valid.length = 0 then Frac.ofInt 0
  else
    Frac.divNat
      (valid.foldl (fun s i => Frac.add s ((xLookup xm i).getD (Frac.ofInt 0)))
        (Frac.ofInt 0))
      valid.length

/-- The pass-1 sort key name (`${firstName}${lastName ?? ''}`);
`localeCompare` is modelled as code-unit comparison. -/
def nameKey (p : Person) : String := p.firstName ++ p.lastName.getD ""

/-- The pass-1 comparator as a `mergeSort` predicate: `a` sorts no later
than `b`.  JS `Array.prototype.sort` with a consistent comparator is a
stable sort, which `List.mergeSort` models. -/
def pass1Le (people : List Person) (idsList : List String) (xm : XMap) (a b : String) : Bool :=
  let pa := (personFind people a).getD defaultPerson
  let pb := (personFind people b).getD defaultPerson
  let xA := avgX (pa.parentIds.filter (fun pid => idsList.contains pid)) xm
  let xB := avgX (pb.parentIds.filter (fun pid => idsList.contains pid)) xm
  if !(Frac.beqVal xA xB) then Frac.lt xA xB
  else !(jsStrLt (nameKey pb) (nameKey pa))

/-- Evenly spaced x-coordinates in sorted order. -/
def assignRow (sorted : List String) (xm : XMap) : XMap :=
  sorted.enum.foldl
    (fun m e => xSet m e.2 (Frac.ofInt ((e.1 : Int) * (NODE_W + GAP_H)))) xm

/-- `centerGroup` from TreeCanvas.tsx. -/
def centerGroup (group : List String) (xm : XMap) : XMap :=
  match group with
  | [] => xm
  | _ :: _ =>
    let xs := group.map (fun i => (xLookup xm i).getD (Frac.ofInt 0))
    let mid := Frac.divNat (Frac.add (listMinFrac xs) (listMaxFrac xs)) 2
    group.foldl (fun m i => xSet m i (Frac.sub ((xLookup m i).getD (Frac.ofInt 0)) mid)) xm

/-- The left-to-right push of `resolveOverlaps`, tracking the previous
node's (possibly just updated) x. -/
def overlapWalk : List String → Frac → XMap → XMap
  | [], _, m => m
  | b :: rest, prevX, m =>
    let bx := (xLookup m b).getD (Frac.ofInt 0)
    if Frac.lt (Frac.sub bx prevX) (Frac.ofInt (NODE_W + GAP_H)) then
      overlapWalk rest (Frac.add prevX (Frac.ofInt (NODE_W + GAP_H)))
        (xSet m b (Frac.add prevX (Frac.ofInt (NODE_W + GAP_H))))
    else overlapWalk rest bx m

/-- `resolveOverlaps` from TreeCanvas.tsx. -/
def resolveOverlaps (group : List String) (xm : XMap) : XMap :=
  if group.length ≤ 1 then xm
  else
    match stableSort (fun a b =>
      Frac.le ((xLookup xm a).getD (Frac.ofInt 0)) ((xLookup xm b).getD (Frac.ofInt 0)))
      group with
    | [] => xm
    | a :: rest => overlapWalk rest ((xLookup xm a).getD (Frac.ofInt 0)) xm

/-- Pass 1 over all layers (in increasing generation order): sort each
layer by parent average (ties by name), assign spaced positions, recenter.
The sorted layers replace the group lists (the JS sort is in place). -/
def pass1 (people : List Person) (idsList : List String)
    (groups0 : List (Nat × List String)) : List (Nat × List String) × XMap :=
  groups0.foldl (fun acc entry =>
    let sorted := stableSort (pass1Le people idsList acc.2) entry.2
    let m1 := assignRow sorted acc.2
    let m2 := centerGroup sorted m1
    (acc.1 ++ [(entry.1, sorted)], m2)) ([], [])

/-- `childrenOf.get(pid) ?? []`: the ids of the persons having `pid` among
their parents (one entry per occurrence, in people order), guarded by the
id-set check made while building the map. -/
def childrenOf (people : List Person) (idsList : List String) (pid : String) : List String :=
  people.flatMap (fun p =>
    (p.parentIds.filter (fun q => q = pid && idsList.contains q)).map (fun _ => p.id))

/-- One layer of pass 2: center each node over its positioned children,
then resolve overlaps. -/
def pass2Layer (people : List Person) (idsList : List String) (group : List String)
    (xm : XMap) : XMap :=
  resolveOverlaps group
    (group.foldl (fun m id =>
      let ch := (childrenOf people idsList id).filter (fun cid => (xLookup m cid).isSome)
      match ch with
      | [] => m
      | _ :: _ =>
        let childXs := ch.map (fun cid => (xLookup m cid).getD (Frac.ofInt 0))
        xSet m id (Frac.divNat (Frac.add (listMinFrac childXs) (listMaxFrac childXs)) 2)) xm)

/-- Pass 2 (bottom-up). -/
def pass2 (people : List Person) (idsList : List String)
    (groupsSorted : List (Nat × List String)) (xm : XMap) : XMap :=
  groupsSorted.reverse.foldl (fun m e => pass2Layer people idsList e.2 m) xm

/-- One layer of pass 3: pull each node with positioned parents toward the
parent average with weights 0.3/0.7, then resolve overlaps. -/
def pass3Layer (people : List Person) (group : List String) (xm : XMap) : XMap :=
  resolveOverlaps group
    (group.foldl (fun m id =>
      let person := (personFind people id).getD defaultPerson
      let validParents := person.parentIds.filter (fun pid => (xLookup m pid).isSome)
      match validParents with
      | [] => m
      | _ :: _ =>
        let parentAvg := avgX validParents m
        xSet m id (Frac.add
          (Frac.mul ((xLookup m id).getD (Frac.ofInt 0)) (Frac.norm ⟨3, 10⟩))
          (Frac.mul parentAvg (Frac.norm ⟨7, 10⟩)))) xm)

/-- Pass 3 (top-down). -/
def pass3 (people : List Person) (groupsSorted : List (Nat × List String))
    (xm : XMap) : XMap :=
  groupsSorted.foldl (fun m e => pass3Layer people e.2 m) xm

/-- An edge of the layout result. -/
structure LayoutEdge where
  eid : String
  source : String
  target : String
  etype : String
deriving DecidableEq, Repr

/-- `computeLayout`'s result: positions (id, x, y) in `xPos` insertion
order, and the parent→child edges. -/
structure LayoutResult where
  positions : List (String × Frac × Frac)
  edges : List LayoutEdge
deriving DecidableEq, Repr

/-- The layer keys: the distinct generation values, ascending. -/
def layerKeysOf (gens : GenMap) : List Nat :=
  stableSort (fun a b => decide (a ≤ b)) ((gens.map (fun e => e.2)).dedup)

/-- The per-generation groups, in layer-key order; each group lists its
ids in generation-map insertion order. -/
def groups0Of (gens : GenMap) : List (Nat × List String) :=
  (layerKeysOf gens).map (fun g =>
    (g, (gens.filter (fun e => e.2 = g)).map (fun e => e.1)))

/-- `computeLayout` from TreeCanvas.tsx. -/
def computeLayout (people : List Person) : LayoutResult :=
  if people.isEmpty then ⟨[], []⟩
  else
    let idsList := people.map Person.id
    let gens := assignGenerations people
    let groups0 := groups0Of gens
    let p1 := pass1 people idsList groups0
    let x2 := pass2 people idsList p1.1 p1.2
    let x3 := pass3 people p1.1 x2
    let positions := x3.map (fun e =>
      (e.1, e.2, Frac.ofInt (((genLookup gens e.1).getD 0 : Int) * GAP_V)))
    let edges := people.flatMap (fun p =>
      (p.parentIds.filter (fun pid => idsList.contains pid)).map (fun pid =>
        LayoutEdge.mk ("e-" ++ pid ++ "-" ++ p.id) pid p.id "smoothstep"))
    ⟨positions, edges⟩

/-- x-coordinate of a node in a layout result. -/
def posX (r : LayoutResult) (i : String) : Option Frac :=
  (r.positions.find? (fun e => e.1 = i)).map (fun e => e.2.1)

/-- y-coordinate of a node in a layout result. -/
def posY (r : LayoutResult) (i : String) : Option Frac :=
  (r.positions.find? (fun e => e.1 = i)).map (fun e => e.2.2)

/-- The two-parent convergence scenario: A and B parentless, C with
`parentIds = [A, B]`. -/
def c5People : List Person :=
  [⟨"a", "A", none, none, none, none, [], [], none⟩,
    ⟨"b", "B", none, none, none, none, [], [], none⟩,
    ⟨"c", "C", none, none, none, none, ["a", "b"], [], none⟩]

/-- C5, counterexample.  In the two-parent scenario the final coordinates
are A = 0, B = 230 and C = 161/2 = 80.5: pass 3 blends C's pass-2 position
(0) with the parent midpoint (115) using weights 0.3/0.7, so C does NOT end
at the midpoint of A and B (115). -/
theorem twoParent_midpoint_claim_false :
    posX (computeLayout c5People) "a" = some ⟨0, 1⟩ ∧
      posX (computeLayout c5People) "b" = some ⟨230, 1⟩ ∧
      posX (computeLayout c5People) "c" = some ⟨161, 2⟩ ∧
      Frac.toRat ⟨161, 2⟩ ≠ Frac.toRat (Frac.divNat (Frac.add ⟨0, 1⟩ ⟨230, 1⟩) 2) := by
  refine ⟨by decide, by decide, by decide, ?_⟩
  norm_num [Frac.toRat, Frac.divNat, Frac.add, Frac.norm]

/-- C5, amended.  C is at generation 1 and both edges A→C, B→C are
emitted; its x-coordinate is not the parent midpoint but the pass-3 blend
`0.3 · 0 + 0.7 · 115 = 80.5` of its pass-2 position and the midpoint of A
(at 0) and B (at 230). -/
theorem twoParent_convergence_amended :
    genLookup (assignGenerations c5People) "c" = some 1 ∧
      LayoutEdge.mk "e-a-c" "a" "c" "smoothstep" ∈ (computeLayout c5People).edges ∧
      LayoutEdge.mk "e-b-c" "b" "c" "smoothstep" ∈ (computeLayout c5People).edges ∧
      posX (computeLayout c5People) "c" = some ⟨161, 2⟩ ∧
      Frac.toRat ⟨161, 2⟩ = (3 / 10 : ℚ) * 0 + (7 / 10) * ((0 + 230) / 2) := by
  refine ⟨by decide, by decide, by decide, by decide, ?_⟩
  norm_num [Frac.toRat]

/-- Two distinct persons with identical names and no parents, in two input
orders. -/
def c6run1 : List Person :=
  [⟨"1", "Ann", none, none, none, none, [], [], none⟩,
    ⟨"2", "Ann", none, none, none, none, [], [], none⟩]

def c6run2 : List Person :=
  [⟨"2", "Ann", none, none, none, none, [], [], none⟩,
    ⟨"1", "Ann", none, none, none, none, [], [], none⟩]

/-- C6, counterexample.  The two lists hold the same persons (same ids,
names, parentIds) in different orders, yet person "1" is laid out at
x = −115 in one run and x = 115 in the other: the pass-1 tie-break
(average parent x, then name) cannot separate two equally named parentless
persons, so the stable sort falls back to input order. -/
theorem layout_order_dependent :
    c6run1.Perm c6run2 ∧
      posX (computeLayout c6run1) "1" = some ⟨-115, 1⟩ ∧
      posX (computeLayout c6run2) "1" = some ⟨115, 1⟩ ∧
      Frac.toRat ⟨-115, 1⟩ ≠ Frac.toRat ⟨115, 1⟩ := by
  refine ⟨by decide, by decide, by decide, ?_⟩
  norm_num [Frac.toRat]

/-- The two-person parent cycle a ↔ b. -/
def c8cyc : List Person :=
  [⟨"a", "A", none, none, none, none, ["b"], [], none⟩,
    ⟨"b", "B", none, none, none, none, ["a"], [], none⟩]

/-- C8, counterexample.  On a cyclic input the defensive visiting-set guard
breaks the claimed recurrence: `assignGenerations` gives a ↦ 2 and b ↦ 1,
but b's only (present) parent is a, so the claim demands
`gen b = 1 + gen a = 3`. -/
theorem assignGenerations_recurrence_claim_false :
    ¬ (∀ p ∈ c8cyc,
        (genLookup (assignGenerations c8cyc) p.id).isSome ∧
        (p.parentIds.filter (fun pid => (c8cyc.map Person.id).contains pid) = [] →
          (genLookup (assignGenerations c8cyc) p.id).getD 0 = 0) ∧
        (p.parentIds.filter (fun pid => (c8cyc.map Person.id).contains pid) ≠ [] →
          (genLookup (assignGenerations c8cyc) p.id).getD 0
            = ((p.parentIds.filter (fun pid => (c8cyc.map Person.id).contains pid)).map
                (fun pid => (genLookup (assignGenerations c8cyc) pid).getD 0)).foldl
                  Nat.max 0 + 1)) := by
  decide

/-! ### The generation recurrence on acyclic graphs

`genSpecF` is the fuel-indexed solution of the generation recurrence the
spec states; under a rank function witnessing acyclicity of the present
parent edges it is fuel-stable, and the memoized `computeGen` always
returns it, visiting-set guard and memo map notwithstanding. -/

/-- The pure generation recurrence, with fuel. -/
def genSpecF (people : List Person) : Nat → String → Nat
  | 0, _ => 0
  | fuel + 1, i =>
    match personFind people i with
    | none => 0
    | some p =>
      match p.parentIds.filter (fun pid => (people.map Person.id).contains pid) with
      | [] => 0
      | ps => (ps.map (genSpecF people fuel)).foldl Nat.max 0 + 1

/-- A rank function decreasing along present parent edges (a topological
measure — on a finite graph one exists exactly when the parent graph is
acyclic). -/
def ParentRank (people : List Person) (D : String → Nat) : Prop :=
  ∀ p ∈ people, ∀ pid ∈ p.parentIds, pid ∈ people.map Person.id → D pid < D p.id

/-- A successful `personFind` returns a member with the looked-up id. -/
theorem personFind_eq_some {people : List Person} {i : String} {p : Person}
    (h : personFind people i = some p) : p ∈ people ∧ p.id = i := by
  unfold personFind at h
  refine ⟨List.mem_reverse.1 (List.mem_of_find?_eq_some h), ?_⟩
  have := List.find?_some h
  simpa using this

/-- An id present in the list is found. -/
theorem personFind_isSome {people : List Person} {i : String}
    (h : i ∈ people.map Person.id) : (personFind people i).isSome := by
  unfold personFind
  rw [List.find?_isSome]
  rcases List.mem_map.1 h with ⟨p, hp, rfl⟩
  exact ⟨p, List.mem_reverse.2 hp, by simp⟩

/-- Under unique ids, `personFind` returns the member itself. -/
theorem personFind_self {people : List Person} (hnd : (people.map Person.id).Nodup)
    {p : Person} (hp : p ∈ people) : personFind people p.id = some p := by
  match hfind : personFind people p.id with
  | none =>
    exfalso
    have := personFind_isSome (List.mem_map_of_mem Person.id hp)
    rw [hfind] at this
    simp at this
  | some q =>
    obtain ⟨hq, hqid⟩ := personFind_eq_some hfind
    rw [eq_of_mem_of_id_eq hnd hq hp hqid]

/-- Fuel stability of the recurrence under a parent rank. -/
theorem genSpecF_stable {people : List Person} {D : String → Nat}
    (hD : ParentRank people D) :
    ∀ (n : Nat) (i : String), D i ≤ n → i ∈ people.map Person.id →
      ∀ f₁ f₂, D i < f₁ → D i < f₂ → genSpecF people f₁ i = genSpecF people f₂ i := by
  intro n
  induction n with
  | zero =>
    intro i hle hmem f₁ f₂ h₁ h₂
    match f₁, f₂ with
    | g₁ + 1, g₂ + 1 =>
      simp only [genSpecF]
      match hfind : personFind people i with
      | none => simp only [hfind]
      | some p =>
        simp only [hfind]
        match hpar : p.parentIds.filter (fun pid => (people.map Person.id).contains pid) with
        | [] => simp only [hpar]
        | q :: qs =>
          exfalso
          obtain ⟨hpmem, hpid⟩ := personFind_eq_some hfind
          have hq : q ∈ p.parentIds ∧ ((people.map Person.id).contains q = true) := by
            have hqmem : q ∈ p.parentIds.filter
                (fun pid => (people.map Person.id).contains pid) := by
              rw [hpar]; exact List.mem_cons_self _ _
            exact ⟨List.mem_of_mem_filter hqmem, List.of_mem_filter hqmem⟩
          have := hpid ▸ hD p hpmem q hq.1 (by simpa using hq.2)
          omega
  | succ n ih =>
    intro i hle hmem f₁ f₂ h₁ h₂
    match f₁, f₂ with
    | g₁ + 1, g₂ + 1 =>
      simp only [genSpecF]
      match hfind : personFind people i with
      | none => simp only [hfind]
      | some p =>
        simp only [hfind]
        obtain ⟨hpmem, hpid⟩ := personFind_eq_some hfind
        match hpar : p.parentIds.filter (fun pid => (people.map Person.id).contains pid) with
        | [] => simp only [hpar]
        | q :: qs =>
          simp only [hpar]
          have hstep : ∀ pid ∈ q :: qs,
              genSpecF people g₁ pid = genSpecF people g₂ pid := by
            intro pid hpidmem
            have hpidmem' : pid ∈ p.parentIds.filter
                (fun pid => (people.map Person.id).contains pid) := by
              rw [hpar]; exact hpidmem
            have hpid1 : pid ∈ p.parentIds := List.mem_of_mem_filter hpidmem'
            have hpid2 : pid ∈ people.map Person.id := by
              simpa using List.of_mem_filter hpidmem'
            have hlt : D pid < D i := hpid ▸ hD p hpmem pid hpid1 hpid2
            exact ih pid (by omega) hpid2 g₁ g₂ (by omega) (by omega)
          rw [List.map_congr_left hstep]

/-- Rewriting every entry with key `k` in an association list only affects
lookups of `k`. -/
theorem assocFind_rewrite {β : Type} (m : List (String × β)) (k : String) (v : β)
    (j : String) :
    ((m.map (fun e => if e.1 = k then (k, v) else e)).find? (fun e => e.1 = j))
      = if j = k then (m.find? (fun e => e.1 = k)).map (fun _ => (k, v))
        else m.find? (fun e => e.1 = j) := by
  induction m with
  | nil => split <;> rfl
  | cons e es ih =>
    by_cases he : e.1 = k
    · by_cases hjk : j = k
      · subst hjk
        simp [List.find?_cons, he]
      · have hkj : ¬ (k = j) := fun h => hjk h.symm
        have hej : ¬ (e.1 = j) := fun h => hjk (h ▸ he)
        simp [List.find?_cons, he, hkj, hej, ih, hjk]
    · by_cases hje : e.1 = j
      · have hjk : ¬ (j = k) := fun h => he (hje.trans h)
        simp [List.find?_cons, he, hje, hjk]
      · simp [List.find?_cons, he, hje, ih]

/-- `Map.set` then `Map.get`, generation map. -/
theorem genLookup_genSet (m : GenMap) (k : String) (v : Nat) (j : String) :
    genLookup (genSet m k v) j = if j = k then some v else genLookup m j := by
  unfold genSet genLookup
  by_cases hany : m.any (fun e => e.1 = k)
  · rw [if_pos hany, assocFind_rewrite]
    by_cases hjk : j = k
    · rw [if_pos hjk, if_pos hjk]
      have hs : (m.find? (fun e => e.1 = k)).isSome := by
        rw [List.find?_isSome]
        rcases List.any_eq_true.1 hany with ⟨e, he, hpe⟩
        exact ⟨e, he, hpe⟩
      obtain ⟨e, he⟩ := Option.isSome_iff_exists.1 hs
      rw [he]
      rfl
    · rw [if_neg hjk, if_neg hjk]
  · rw [if_neg hany, List.find?_append]
    by_cases hjk : j = k
    · subst hjk
      have hnone : m.find? (fun e => e.1 = j) = none := by
        rw [List.find?_eq_none]
        intro e he
        rw [List.any_eq_true] at hany
        simpa using fun h => hany ⟨e, he, by simpa using h⟩
      rw [hnone, if_pos rfl]
      simp [List.find?_cons]
    · have hsingle : ([(k, v)].find? (fun e => e.1 = j)) = none := by
        rw [List.find?_eq_none]
        intro e he
        rcases List.mem_singleton.1 he with rfl
        simpa using fun h => hjk h.symm
      rw [hsingle, if_neg hjk]
      simp

/-- `Map.set` then `Map.get`, x-position map. -/
theorem xLookup_xSet (m : XMap) (k : String) (v : Frac) (j : String) :
    xLookup (xSet m k v) j = if j = k then some v else xLookup m j := by
  unfold xSet xLookup
  by_cases hany : m.any (fun e => e.1 = k)
  · rw [if_pos hany, assocFind_rewrite]
    by_cases hjk : j = k
    · rw [if_pos hjk, if_pos hjk]
      have hs : (m.find? (fun e => e.1 = k)).isSome := by
        rw [List.find?_isSome]
        rcases List.any_eq_true.1 hany with ⟨e, he, hpe⟩
        exact ⟨e, he, hpe⟩
      obtain ⟨e, he⟩ := Option.isSome_iff_exists.1 hs
      rw [he]
      rfl
    · rw [if_neg hjk, if_neg hjk]
  · rw [if_neg hany, List.find?_append]
    by_cases hjk : j = k
    · subst hjk
      have hnone : m.find? (fun e => e.1 = j) = none := by
        rw [List.find?_eq_none]
        intro e he
        rw [List.any_eq_true] at hany
        simpa using fun h => hany ⟨e, he, by simpa using h⟩
      rw [hnone, if_pos rfl]
      simp [List.find?_cons]
    · have hsingle : ([(k, v)].find? (fun e => e.1 = j)) = none := by
        rw [List.find?_eq_none]
        intro e he
        rcases List.mem_singleton.1 he with rfl
        simpa using fun h => hjk h.symm
      rw [hsingle, if_neg hjk]
      simp

/-- Entries of `genSet m k v` are `(k, v)` or old entries. -/
theorem mem_genSet {m : GenMap} {k : String} {v : Nat} {e : String × Nat}
    (he : e ∈ genSet m k v) : e = (k, v) ∨ e ∈ m := by
  unfold genSet at he
  by_cases hany : m.any (fun x => x.1 = k)
  · rw [if_pos hany] at he
    rcases List.mem_map.1 he with ⟨x, hx, hxe⟩
    by_cases hxk : x.1 = k
    · rw [if_pos hxk] at hxe
      exact Or.inl hxe.symm
    · rw [if_neg hxk] at hxe
      exact Or.inr (hxe ▸ hx)
  · rw [if_neg hany] at he
    rcases List.mem_append.1 he with h | h
    · exact Or.inr h
    · exact Or.inl (List.mem_singleton.1 h)

/-- `genSet` keeps the key list duplicate-free. -/
theorem genSet_keys_nodup {m : GenMap} (k : String) (v : Nat)
    (h : (m.map Prod.fst).Nodup) : ((genSet m k v).map Prod.fst).Nodup := by
  unfold genSet
  by_cases hany : m.any (fun x => x.1 = k)
  · rw [if_pos hany]
    have hkeys : (m.map (fun e => if e.1 = k then (k, v) else e)).map Prod.fst
        = m.map Prod.fst := by
      rw [List.map_map]
      refine List.map_congr_left ?_
      intro e _
      by_cases hek : e.1 = k
      · simp [hek]
      · simp [hek]
    rw [hkeys]
    exact h
  · rw [if_neg hany, List.map_append]
    rw [List.nodup_append]
    refine ⟨h, List.nodup_singleton _, ?_⟩
    intro a ha hb
    rcases List.mem_map.1 ha with ⟨e, he, rfl⟩
    rcases List.mem_singleton.1 hb with h'
    rw [List.any_eq_true] at hany
    exact hany ⟨e, he, by simpa using h'⟩

/-- The memo-map invariant: unique keys, and every stored value is the value
of the generation recurrence at its key. -/
def GoodMem (people : List Person) (D : String → Nat) (m : GenMap) : Prop :=
  (m.map Prod.fst).Nodup ∧
    ∀ e ∈ m, e.1 ∈ people.map Person.id ∧ e.2 = genSpecF people (D e.1 + 1) e.1

/-- `genSet` with a correct value preserves the memo invariant. -/
theorem goodMem_genSet {people : List Person} {D : String → Nat} {m : GenMap}
    (hm : GoodMem people D m) {k : String} {v : Nat}
    (hk : k ∈ people.map Person.id) (hv : v = genSpecF people (D k + 1) k) :
    GoodMem people D (genSet m k v) := by
  refine ⟨genSet_keys_nodup k v hm.1, ?_⟩
  intro e he
  rcases mem_genSet he with rfl | he'
  · exact ⟨hk, hv⟩
  · exact hm.2 e he'

/-- A successful lookup in a good memo map returns the recurrence value. -/
theorem goodMem_lookup {people : List Person} {D : String → Nat} {m : GenMap}
    (hm : GoodMem people D m) {i : String} {g : Nat}
    (h : genLookup m i = some g) :
    i ∈ people.map Person.id ∧ g = genSpecF people (D i + 1) i := by
  unfold genLookup at h
  rcases Option.map_eq_some'.1 h with ⟨e, hfind, hval⟩
  have hmem : e ∈ m := List.mem_of_find?_eq_some hfind
  have hkey : e.1 = i := by simpa using List.find?_some hfind
  obtain ⟨h1, h2⟩ := hm.2 e hmem
  rw [hkey] at h1 h2
  exact ⟨h1, hval ▸ h2⟩

/-- `genSet` preserves definedness of lookups and defines its own key. -/
theorem genLookup_genSet_isSome {m : GenMap} {k : String} {v : Nat} :
    (∀ j, (genLookup m j).isSome → (genLookup (genSet m k v) j).isSome) ∧
      (genLookup (genSet m k v) k).isSome := by
  constructor
  · intro j hj
    rw [genLookup_genSet]
    by_cases hjk : j = k
    · rw [if_pos hjk]; rfl
    · rw [if_neg hjk]; exact hj
  · rw [genLookup_genSet, if_pos rfl]; rfl

/-- The memoized `compute` returns the recurrence value under an acyclicity
rank: the memo check, the visiting-set cycle guard and the fuel fallback are
all benign along rank-respecting call stacks. -/
theorem computeGen_correct {people : List Person} {D : String → Nat}
    (hD : ParentRank people D) :
    ∀ (fuel : Nat) (id : String) (visiting : List String) (m : GenMap),
      id ∈ people.map Person.id →
      GoodMem people D m →
      (∀ v ∈ visiting, D id < D v) →
      ((people.map Person.id).toFinset \ visiting.toFinset).card < fuel →
      (computeGen people fuel id visiting m).1 = genSpecF people (D id + 1) id ∧
        GoodMem people D (computeGen people fuel id visiting m).2 ∧
        (∀ j, (genLookup m j).isSome →
          (genLookup (computeGen people fuel id visiting m).2 j).isSome) ∧
        (genLookup (computeGen people fuel id visiting m).2 id).isSome := by
  intro fuel
  induction fuel with
  | zero =>
    intro id visiting m _ _ _ hcard
    exact absurd hcard (Nat.not_lt_zero _)
  | succ fuel ih =>
    intro id visiting m hid hm hvis hcard
    have hidnv : id ∉ visiting := fun hmem => absurd (hvis id hmem) (lt_irrefl _)
    simp only [computeGen]
    match hlook : genLookup m id with
    | some g =>
      simp only [hlook]
      obtain ⟨_, hgval⟩ := goodMem_lookup hm hlook
      exact ⟨hgval, hm, fun j hj => hj, rfl⟩
    | none =>
      simp only [hlook]
      rw [if_neg hidnv]
      match hfind : personFind people id with
      | none =>
        exfalso
        have := personFind_isSome hid
        rw [hfind] at this
        simp at this
      | some person =>
        simp only [hfind]
        obtain ⟨hpmem, hpid⟩ := personFind_eq_some hfind
        match hpar : person.parentIds.filter
            (fun pid => (people.map Person.id).contains pid) with
        | [] =>
          simp only [hpar]
          have hval : genSpecF people (D id + 1) id = 0 := by
            simp only [genSpecF, hfind, hpar]
          exact ⟨hval.symm, goodMem_genSet hm hid hval.symm,
            genLookup_genSet_isSome.1, genLookup_genSet_isSome.2⟩
        | q :: qs =>
          simp only [hpar]
          have hparfacts : ∀ pid ∈ q :: qs,
              pid ∈ people.map Person.id ∧ D pid < D id := by
            intro pid hpidmem
            have h' : pid ∈ person.parentIds.filter
                (fun pid => (people.map Person.id).contains pid) := by
              rw [hpar]; exact hpidmem
            have h1 : pid ∈ person.parentIds := List.mem_of_mem_filter h'
            have h2 : pid ∈ people.map Person.id := by
              simpa using List.of_mem_filter h'
            exact ⟨h2, hpid ▸ hD person hpmem pid h1 h2⟩
          have hcard' : ((people.map Person.id).toFinset
              \ (id :: visiting).toFinset).card < fuel := by
            have h1 : (people.map Person.id).toFinset \ (id :: visiting).toFinset
                = ((people.map Person.id).toFinset \ visiting.toFinset).erase id := by
              ext a
              simp only [Finset.mem_sdiff, Finset.mem_erase, List.toFinset_cons,
                Finset.mem_insert]
              tauto
            have h2 : id ∈ (people.map Person.id).toFinset \ visiting.toFinset := by
              rw [Finset.mem_sdiff]
              exact ⟨List.mem_toFinset.2 hid, fun hc => hidnv (List.mem_toFinset.1 hc)⟩
            rw [h1, Finset.card_erase_of_mem h2]
            have := Finset.card_pos.2 ⟨id, h2⟩
            omega
          have hfold : ∀ (ps : List String),
              (∀ pid ∈ ps, pid ∈ people.map Person.id ∧ D pid < D id) →
              ∀ (acc0 : List Nat) (m0 : GenMap), GoodMem people D m0 →
              (ps.foldl (fun (acc : List Nat × GenMap) pid =>
                  (acc.1 ++ [(computeGen people fuel pid (id :: visiting) acc.2).1],
                    (computeGen people fuel pid (id :: visiting) acc.2).2))
                (acc0, m0)).1
                = acc0 ++ ps.map (fun pid => genSpecF people (D pid + 1) pid) ∧
              GoodMem people D
                (ps.foldl (fun (acc : List Nat × GenMap) pid =>
                  (acc.1 ++ [(computeGen people fuel pid (id :: visiting) acc.2).1],
                    (computeGen people fuel pid (id :: visiting) acc.2).2))
                (acc0, m0)).2 ∧
              (∀ j, (genLookup m0 j).isSome →
                (genLookup (ps.foldl (fun (acc : List Nat × GenMap) pid =>
                  (acc.1 ++ [(computeGen people fuel pid (id :: visiting) acc.2).1],
                    (computeGen people fuel pid (id :: visiting) acc.2).2))
                  (acc0, m0)).2 j).isSome) := by
            intro ps
            induction ps with
            | nil =>
              intro _ acc0 m0 hm0
              exact ⟨by simp, hm0, fun j hj => hj⟩
            | cons pid rest ihp =>
              intro hps acc0 m0 hm0
              obtain ⟨hpid1, hpid2⟩ := hps pid (List.mem_cons_self _ _)
              have hvis' : ∀ v ∈ id :: visiting, D pid < D v := by
                intro v hv
                rcases List.mem_cons.1 hv with rfl | hv'
                · exact hpid2
                · exact lt_trans hpid2 (hvis v hv')
              obtain ⟨hc1, hc2, hc3, _⟩ :=
                ih pid (id :: visiting) m0 hpid1 hm0 hvis' hcard'
              obtain ⟨hr1, hr2, hr3⟩ :=
                ihp (fun x hx => hps x (List.mem_cons_of_mem _ hx))
                  (acc0 ++ [(computeGen people fuel pid (id :: visiting) m0).1])
                  ((computeGen people fuel pid (id :: visiting) m0).2) hc2
              refine ⟨?_, hr2, fun j hj => hr3 j (hc3 j hj)⟩
              rw [List.foldl_cons]
              rw [hr1, hc1]
              simp
          obtain ⟨hf1, hf2, hf3⟩ := hfold (q :: qs) hparfacts [] m hm
          have hmapeq : (q :: qs).map (fun pid => genSpecF people (D pid + 1) pid)
              = (q :: qs).map (genSpecF people (D id)) := by
            refine List.map_congr_left ?_
            intro pid hp
            exact genSpecF_stable hD (D pid) pid le_rfl (hparfacts pid hp).1
              (D pid + 1) (D id) (by omega) (hparfacts pid hp).2
          have hgoalval :
              (((q :: qs).foldl (fun (acc : List Nat × GenMap) pid =>
                  (acc.1 ++ [(computeGen people fuel pid (id :: visiting) acc.2).1],
                    (computeGen people fuel pid (id :: visiting) acc.2).2))
                ([], m)).1.foldl Nat.max 0) + 1
                = genSpecF people (D id + 1) id := by
            rw [hf1]
            rw [List.nil_append, hmapeq]
            simp only [genSpecF, hfind, hpar]
          exact ⟨hgoalval, goodMem_genSet hf2 hid hgoalval,
            fun j hj => genLookup_genSet_isSome.1 j (hf3 j hj),
            genLookup_genSet_isSome.2⟩

/-- `assignGenerations` builds a good memo map defined on every person id. -/
theorem assignGenerations_correct {people : List Person} {D : String → Nat}
    (hD : ParentRank people D) :
    GoodMem people D (assignGenerations people) ∧
      ∀ i ∈ people.map Person.id, (genLookup (assignGenerations people) i).isSome := by
  have hfuel : ∀ p ∈ people,
      ((people.map Person.id).toFinset \ ([] : List String).toFinset).card
        < people.length + 1 := by
    intro p _
    have h1 : (people.map Person.id).toFinset.card ≤ (people.map Person.id).length :=
      List.toFinset_card_le _
    simp only [List.toFinset_nil, Finset.sdiff_empty]
    rw [List.length_map] at h1
    omega
  have key : ∀ (ps : List Person), (∀ p ∈ ps, p ∈ people) →
      ∀ m0 : GenMap, GoodMem people D m0 →
      GoodMem people D (ps.foldl
        (fun m p => (computeGen people (people.length + 1) p.id [] m).2) m0) ∧
      (∀ j, (genLookup m0 j).isSome →
        (genLookup (ps.foldl
          (fun m p => (computeGen people (people.length + 1) p.id [] m).2) m0)
          j).isSome) ∧
      (∀ p ∈ ps, (genLookup (ps.foldl
        (fun m p => (computeGen people (people.length + 1) p.id [] m).2) m0)
        p.id).isSome) := by
    intro ps
    induction ps with
    | nil =>
      intro _ m0 hm0
      exact ⟨hm0, fun j hj => hj, fun p hp => absurd hp (List.not_mem_nil _)⟩
    | cons p rest ihp =>
      intro hps m0 hm0
      have hpmem : p ∈ people := hps p (List.mem_cons_self _ _)
      have hpid : p.id ∈ people.map Person.id := List.mem_map_of_mem Person.id hpmem
      obtain ⟨_, hc2, hc3, hc4⟩ :=
        computeGen_correct hD (people.length + 1) p.id [] m0 hpid hm0
          (fun v hv => absurd hv (List.not_mem_nil _)) (hfuel p hpmem)
      obtain ⟨hr1, hr2, hr3⟩ :=
        ihp (fun x hx => hps x (List.mem_cons_of_mem _ hx))
          ((computeGen people (people.length + 1) p.id [] m0).2) hc2
      refine ⟨hr1, fun j hj => hr2 j (hc3 j hj), ?_⟩
      intro x hx
      rcases List.mem_cons.1 hx with rfl | hx'
      · exact hr2 x.id hc4
      · exact hr3 x hx'
  obtain ⟨h1, _, h3⟩ := key people (fun p hp => hp) [] ⟨List.nodup_nil, by simp⟩
  refine ⟨h1, ?_⟩
  intro i hi
  rcases List.mem_map.1 hi with ⟨p, hp, rfl⟩
  exact h3 p hp

/-- C8 (amended): on inputs whose present parent edges are acyclic — witnessed
by a rank function `D` decreasing along present parent edges — and whose ids
are unique, `assignGenerations` assigns every person a generation: 0 when the
person has no parent id present in the person set (dangling references are
dropped by the filter), and otherwise 1 plus the maximum generation among its
present parents.  (On cyclic inputs the visiting-set guard breaks the
recurrence, as the counterexample above shows, so acyclicity is required.) -/
theorem generation_recurrence_acyclic {people : List Person} {D : String → Nat}
    (hnd : (people.map Person.id).Nodup) (hD : ParentRank people D) :
    ∀ p ∈ people,
      (genLookup (assignGenerations people) p.id).isSome ∧
      (p.parentIds.filter (fun pid => (people.map Person.id).contains pid) = [] →
        (genLookup (assignGenerations people) p.id).getD 0 = 0) ∧
      (p.parentIds.filter (fun pid => (people.map Person.id).contains pid) ≠ [] →
        (genLookup (assignGenerations people) p.id).getD 0
          = ((p.parentIds.filter
              (fun pid => (people.map Person.id).contains pid)).map
              (fun pid => (genLookup (assignGenerations people) pid).getD 0)).foldl
                Nat.max 0 + 1) := by
  obtain ⟨hgood, hdef⟩ := assignGenerations_correct hD
  have hval : ∀ i ∈ people.map Person.id,
      (genLookup (assignGenerations people) i).getD 0
        = genSpecF people (D i + 1) i := by
    intro i hi
    obtain ⟨g, hg⟩ := Option.isSome_iff_exists.1 (hdef i hi)
    obtain ⟨_, hgval⟩ := goodMem_lookup hgood hg
    rw [hg]
    exact hgval
  intro p hp
  have hpid : p.id ∈ people.map Person.id := List.mem_map_of_mem Person.id hp
  have hfind : personFind people p.id = some p := personFind_self hnd hp
  refine ⟨hdef p.id hpid, ?_, ?_⟩
  · intro hpar
    rw [hval p.id hpid]
    simp only [genSpecF, hfind, hpar]
  · intro hpar
    match hps : p.parentIds.filter
        (fun pid => (people.map Person.id).contains pid) with
    | [] => exact absurd hps hpar
    | q :: qs =>
      have hparfacts : ∀ pid ∈ q :: qs,
          pid ∈ people.map Person.id ∧ D pid < D p.id := by
        intro pid hpidmem
        have h' : pid ∈ p.parentIds.filter
            (fun pid => (people.map Person.id).contains pid) := by
          rw [hps]; exact hpidmem
        have h1 : pid ∈ p.parentIds := List.mem_of_mem_filter h'
        have h2 : pid ∈ people.map Person.id := by
          simpa using List.of_mem_filter h'
        exact ⟨h2, hD p hp pid h1 h2⟩
      rw [hval p.id hpid]
      have hmapeq : (q :: qs).map
          (fun pid => (genLookup (assignGenerations people) pid).getD 0)
          = (q :: qs).map (genSpecF people (D p.id)) := by
        refine List.map_congr_left ?_
        intro pid hq
        rw [hval pid (hparfacts pid hq).1]
        exact genSpecF_stable hD (D pid) pid le_rfl (hparfacts pid hq).1
          (D pid + 1) (D p.id) (by omega) (hparfacts pid hq).2
      rw [hmapeq]
      simp only [genSpecF, hfind, hps]

/-- The acyclic two-person graph for the C8 witness: `g` has only a dangling
parent reference, `h` has present parent `g`. -/
def c8acyc : List Person :=
  [⟨"g", "Gil", none, none, none, none, ["missing"], [], none⟩,
   ⟨"h", "Hal", none, none, none, none, ["g"], [], none⟩]

/-- A rank function for `c8acyc`. -/
def c8D : String → Nat := fun i => if i = "h" then 1 else 0

/-- Witness for the amended C8 theorem: its hypotheses hold on `c8acyc`, and
the recurrence conclusion follows by the theorem. -/
theorem generation_recurrence_acyclic_witness :
    ((c8acyc.map Person.id).Nodup ∧ ParentRank c8acyc c8D) ∧
    ∀ p ∈ c8acyc,
      (genLookup (assignGenerations c8acyc) p.id).isSome ∧
      (p.parentIds.filter (fun pid => (c8acyc.map Person.id).contains pid) = [] →
        (genLookup (assignGenerations c8acyc) p.id).getD 0 = 0) ∧
      (p.parentIds.filter (fun pid => (c8acyc.map Person.id).contains pid) ≠ [] →
        (genLookup (assignGenerations c8acyc) p.id).getD 0
          = ((p.parentIds.filter
              (fun pid => (c8acyc.map Person.id).contains pid)).map
              (fun pid => (genLookup (assignGenerations c8acyc) pid).getD 0)).foldl
                Nat.max 0 + 1) :=
  ⟨⟨by decide, by unfold ParentRank; decide⟩,
    @generation_recurrence_acyclic c8acyc c8D (by decide)
      (by unfold ParentRank; decide)⟩

/-! ### Determinism of the layout

The order-dependence counterexample above exploits two equally named
persons; the amended claim shows that order independence holds as soon as
the name keys are injective (and the graph has unique ids and acyclic
present parent edges, without which even the generations are
order-dependent).  The development needs: the code-unit string order is a
strict total order; the stable insertion sort is determined by a sorted
permutation argument; normalised fractions are canonical, so value-level
`min`/`max` over permuted child lists agree structurally. -/

theorem charListLt_irrefl : ∀ s : List Char, charListLt s s = false := by
  intro s
  induction s with
  | nil => rfl
  | cons a as ih =>
    show charListLt (a :: as) (a :: as) = false
    unfold charListLt
    rw [if_neg (lt_irrefl _), if_neg (lt_irrefl _)]
    exact ih

theorem charListLt_asymm : ∀ (s t : List Char),
    charListLt s t = true → charListLt t s = false := by
  intro s
  induction s with
  | nil =>
    intro t h
    cases t with
    | nil => exact absurd h (by simp [charListLt])
    | cons b bs => rfl
  | cons a as ih =>
    intro t h
    cases t with
    | nil => exact absurd h (by simp [charListLt])
    | cons b bs =>
      unfold charListLt at h ⊢
      by_cases h1 : a.toNat < b.toNat
      · rw [if_neg (by omega), if_pos h1]
      · rw [if_neg h1] at h
        by_cases h2 : b.toNat < a.toNat
        · rw [if_pos h2] at h
          exact absurd h (by simp)
        · rw [if_neg h2] at h
          rw [if_neg h2, if_neg h1]
          exact ih bs h

theorem charListLt_trans : ∀ (s t u : List Char),
    charListLt s t = true → charListLt t u = true → charListLt s u = true := by
  intro s
  induction s with
  | nil =>
    intro t u h1 h2
    cases u with
    | nil =>
      cases t with
      | nil => exact absurd h1 (by simp [charListLt])
      | cons b bs => exact absurd h2 (by simp [charListLt])
    | cons c cs => rfl
  | cons a as ih =>
    intro t u h1 h2
    cases t with
    | nil => exact absurd h1 (by simp [charListLt])
    | cons b bs =>
      cases u with
      | nil => exact absurd h2 (by simp [charListLt])
      | cons c cs =>
        unfold charListLt at h1 h2 ⊢
        by_cases hab : a.toNat < b.toNat
        · by_cases hbc : b.toNat < c.toNat
          · rw [if_pos (by omega)]
          · rw [if_neg hbc] at h2
            by_cases hcb : c.toNat < b.toNat
            · rw [if_pos hcb] at h2
              exact absurd h2 (by simp)
            · rw [if_pos (by omega)]
        · rw [if_neg hab] at h1
          by_cases hba : b.toNat < a.toNat
          · rw [if_pos hba] at h1
            exact absurd h1 (by simp)
          · rw [if_neg hba] at h1
            by_cases hbc : b.toNat < c.toNat
            · rw [if_pos (by omega)]
            · rw [if_neg hbc] at h2
              by_cases hcb : c.toNat < b.toNat
              · rw [if_pos hcb] at h2
                exact absurd h2 (by simp)
              · rw [if_neg hcb] at h2
                rw [if_neg (by omega), if_neg (by omega)]
                exact ih bs cs h1 h2

/-- Characters with equal code points are equal. -/
theorem char_eq_of_toNat_eq {a b : Char} (h : a.toNat = b.toNat) : a = b := by
  have hv : a.val = b.val := UInt32.ext h
  exact Char.eq_of_val_eq hv

theorem charListLt_conn : ∀ (s t : List Char),
    charListLt s t = false → charListLt t s = false → s = t := by
  intro s
  induction s with
  | nil =>
    intro t h1 h2
    cases t with
    | nil => rfl
    | cons b bs => exact absurd h1 (by simp [charListLt])
  | cons a as ih =>
    intro t h1 h2
    cases t with
    | nil => exact absurd h2 (by simp [charListLt])
    | cons b bs =>
      unfold charListLt at h1 h2
      by_cases hab : a.toNat < b.toNat
      · rw [if_pos hab] at h1
        exact absurd h1 (by simp)
      · rw [if_neg hab] at h1
        by_cases hba : b.toNat < a.toNat
        · rw [if_pos hba] at h2
          exact absurd h2 (by simp)
        · rw [if_neg hba] at h1
          rw [if_neg hba, if_neg hab] at h2
          have hchar : a = b := char_eq_of_toNat_eq (by omega)
          rw [hchar, ih bs h1 h2]

/-- Strings that each fail to precede the other are equal. -/
theorem jsStrLt_conn {s t : String} (h1 : jsStrLt s t = false)
    (h2 : jsStrLt t s = false) : s = t := by
  have h := charListLt_conn s.toList t.toList h1 h2
  cases s
  cases t
  simpa using congrArg String.mk h

theorem insertSorted_perm {α : Type} (le : α → α → Bool) (x : α) :
    ∀ l : List α, (insertSorted le x l).Perm (x :: l) := by
  intro l
  induction l with
  | nil => exact List.Perm.refl _
  | cons y ys ih =>
    unfold insertSorted
    by_cases h : le y x = true
    · rw [if_pos h]
      exact (ih.cons y).trans (List.Perm.swap x y ys)
    · rw [if_neg h]

theorem insertFold_perm {α : Type} (le : α → α → Bool) :
    ∀ (l acc : List α),
      (l.foldl (fun acc y => insertSorted le y acc) acc).Perm (l ++ acc) := by
  intro l
  induction l with
  | nil => intro acc; exact List.Perm.refl _
  | cons y ys ih =>
    intro acc
    rw [List.foldl_cons]
    exact ((ih (insertSorted le y acc)).trans
      (List.Perm.append_left ys (insertSorted_perm le y acc))).trans
      List.perm_middle

theorem stableSort_perm {α : Type} (le : α → α → Bool) (l : List α) :
    (stableSort le l).Perm l := by
  have h := insertFold_perm le l []
  rw [List.append_nil] at h
  exact h

theorem insertSorted_pairwise {α : Type} {le : α → α → Bool} {S : α → Prop}
    (htot : ∀ a b, S a → S b → le a b = true ∨ le b a = true)
    (htr : ∀ a b c, S a → S b → S c → le a b = true → le b c = true → le a c = true)
    {x : α} (hx : S x) :
    ∀ {l : List α}, (∀ y ∈ l, S y) →
      l.Pairwise (fun a b => le a b = true) →
      (insertSorted le x l).Pairwise (fun a b => le a b = true) := by
  intro l
  induction l with
  | nil => intro _ _; exact List.pairwise_singleton _ _
  | cons y ys ih =>
    intro hS hp
    have hSy : S y := hS y (List.mem_cons_self _ _)
    have hSys : ∀ z ∈ ys, S z := fun z hz => hS z (List.mem_cons_of_mem _ hz)
    unfold insertSorted
    by_cases h : le y x = true
    · rw [if_pos h]
      refine List.pairwise_cons.2 ⟨?_, ih hSys (List.pairwise_cons.1 hp).2⟩
      intro z hz
      have hz' : z ∈ x :: ys := (insertSorted_perm le x ys).mem_iff.1 hz
      rcases List.mem_cons.1 hz' with rfl | hz''
      · exact h
      · exact (List.pairwise_cons.1 hp).1 z hz''
    · rw [if_neg h]
      refine List.pairwise_cons.2 ⟨?_, hp⟩
      intro z hz
      have hxy : le x y = true := by
        rcases htot x y hx hSy with h' | h'
        · exact h'
        · exact absurd h' h
      rcases List.mem_cons.1 hz with rfl | hz'
      · exact hxy
      · exact htr x y z hx hSy (hSys z hz') hxy ((List.pairwise_cons.1 hp).1 z hz')

theorem stableSort_pairwise {α : Type} {le : α → α → Bool} {S : α → Prop}
    (htot : ∀ a b, S a → S b → le a b = true ∨ le b a = true)
    (htr : ∀ a b c, S a → S b → S c → le a b = true → le b c = true → le a c = true)
    {l : List α} (hl : ∀ y ∈ l, S y) :
    (stableSort le l).Pairwise (fun a b => le a b = true) := by
  have key : ∀ (t acc : List α), (∀ y ∈ t, S y) → (∀ y ∈ acc, S y) →
      acc.Pairwise (fun a b => le a b = true) →
      (t.foldl (fun acc y => insertSorted le y acc) acc).Pairwise
        (fun a b => le a b = true) := by
    intro t
    induction t with
    | nil => intro acc _ _ hp; exact hp
    | cons y ys ih =>
      intro acc ht hacc hp
      rw [List.foldl_cons]
      refine ih _ (fun z hz => ht z (List.mem_cons_of_mem _ hz)) ?_
        (insertSorted_pairwise htot htr (ht y (List.mem_cons_self _ _)) hacc hp)
      intro z hz
      rcases List.mem_cons.1 ((insertSorted_perm le y acc).mem_iff.1 hz) with rfl | hz'
      · exact ht z (List.mem_cons_self _ _)
      · exact hacc z hz'
  exact key l [] hl (fun y hy => absurd hy (List.not_mem_nil _))
    List.Pairwise.nil

theorem sorted_perm_eq {α : Type} {r : α → α → Prop} :
    ∀ {l₁ l₂ : List α}, l₁.Perm l₂ → l₁.Pairwise r → l₂.Pairwise r →
      (∀ a ∈ l₁, ∀ b ∈ l₁, r a b → r b a → a = b) → l₁ = l₂ := by
  intro l₁
  induction l₁ with
  | nil =>
    intro l₂ hp _ _ _
    exact hp.nil_eq
  | cons a t ih =>
    intro l₂ hp hs₁ hs₂ hanti
    cases l₂ with
    | nil => exact hp.symm.nil_eq.symm
    | cons b t₂ =>
      have hab : a = b := by
        by_contra hne
        have ha2 : a ∈ b :: t₂ := hp.mem_iff.1 (List.mem_cons_self _ _)
        have hb1 : b ∈ a :: t := hp.mem_iff.2 (List.mem_cons_self _ _)
        have ha2' : a ∈ t₂ := by
          rcases List.mem_cons.1 ha2 with h | h
          · exact absurd h hne
          · exact h
        have hb1' : b ∈ t := by
          rcases List.mem_cons.1 hb1 with h | h
          · exact absurd h.symm hne
          · exact h
        have hrab : r a b := (List.pairwise_cons.1 hs₁).1 b hb1'
        have hrba : r b a := (List.pairwise_cons.1 hs₂).1 a ha2'
        exact hne (hanti a (List.mem_cons_self _ _) b (List.mem_cons_of_mem _ hb1')
          hrab hrba)
      subst hab
      have hpt : t.Perm t₂ := hp.cons_inv
      rw [ih hpt (List.pairwise_cons.1 hs₁).2 (List.pairwise_cons.1 hs₂).2
        (fun x hx y hy => hanti x (List.mem_cons_of_mem _ hx)
          y (List.mem_cons_of_mem _ hy))]

/-- Two permuted lists sort identically under a comparator that is total,
transitive and antisymmetric on their members. -/
theorem stableSort_eq_of_perm {α : Type} {le : α → α → Bool} {S : α → Prop}
    (htot : ∀ a b, S a → S b → le a b = true ∨ le b a = true)
    (htr : ∀ a b c, S a → S b → S c → le a b = true → le b c = true → le a c = true)
    (hanti : ∀ a b, S a → S b → le a b = true → le b a = true → a = b)
    {l₁ l₂ : List α} (hp : l₁.Perm l₂) (hS : ∀ y ∈ l₁, S y) :
    stableSort le l₁ = stableSort le l₂ := by
  have hS₂ : ∀ y ∈ l₂, S y := fun y hy => hS y (hp.mem_iff.2 hy)
  have hSs : ∀ y ∈ stableSort le l₁, S y :=
    fun y hy => hS y ((stableSort_perm le l₁).mem_iff.1 hy)
  exact sorted_perm_eq
    (((stableSort_perm le l₁).trans hp).trans (stableSort_perm le l₂).symm)
    (stableSort_pairwise htot htr hS) (stableSort_pairwise htot htr hS₂)
    (fun x hx y hy => hanti x y (hSs x hx) (hSs y hy))

/-- Canonical form: positive denominator, reduced. -/
def Frac.IsCanon (a : Frac) : Prop := 0 < a.den ∧ Int.gcd a.num a.den = 1

theorem Frac.ofInt_canon (n : Int) : (Frac.ofInt n).IsCanon :=
  ⟨by show (0 : Int) < 1; norm_num, by show Int.gcd n 1 = 1; exact Int.gcd_one⟩

/-- The core of `norm`: dividing a positive-denominator pair by the gcd
yields a canonical fraction. -/
theorem canon_build {n d : Int} (hn : n ≠ 0) (hd : 0 < d) :
    Frac.IsCanon ⟨n / ((n.natAbs.gcd d.natAbs : Nat) : Int),
      d / ((n.natAbs.gcd d.natAbs : Nat) : Int)⟩ := by
  have hg0 : 0 < Int.gcd n d :=
    Nat.gcd_pos_of_pos_left _ (Int.natAbs_pos.2 hn)
  have hgpos : (0 : Int) < (Int.gcd n d : Int) := by exact_mod_cast hg0
  have hdr : ((Int.gcd n d : Nat) : Int) ∣ d := Int.gcd_dvd_right
  constructor
  · show 0 < d / ((Int.gcd n d : Nat) : Int)
    have hdd : d / ((Int.gcd n d : Nat) : Int) * ((Int.gcd n d : Nat) : Int) = d :=
      Int.ediv_mul_cancel hdr
    by_contra hle
    push_neg at hle
    have : d / ((Int.gcd n d : Nat) : Int) * ((Int.gcd n d : Nat) : Int) ≤ 0 :=
      mul_nonpos_of_nonpos_of_nonneg hle (le_of_lt hgpos)
    rw [hdd] at this
    omega
  · exact Int.gcd_div_gcd_div_gcd hg0

theorem Frac.norm_canon {a : Frac} (h : a.den ≠ 0) : (Frac.norm a).IsCanon := by
  unfold Frac.norm
  by_cases h0 : a.num = 0
  · rw [if_pos h0]
    exact ⟨by norm_num, by rfl⟩
  · rw [if_neg h0]
    by_cases hneg : a.den < 0
    · simp only [if_pos hneg]
      exact canon_build (mul_ne_zero h0 (by norm_num)) (by rw [mul_neg_one]; omega)
    · simp only [if_neg hneg]
      exact canon_build (mul_ne_zero h0 (by norm_num)) (by rw [mul_one]; omega)

theorem Frac.add_canon {a b : Frac} (ha : 0 < a.den) (hb : 0 < b.den) :
    (Frac.add a b).IsCanon :=
  Frac.norm_canon (by show a.den * b.den ≠ 0; positivity)

theorem Frac.sub_canon {a b : Frac} (ha : 0 < a.den) (hb : 0 < b.den) :
    (Frac.sub a b).IsCanon :=
  Frac.norm_canon (by show a.den * b.den ≠ 0; positivity)

theorem Frac.mul_canon {a b : Frac} (ha : 0 < a.den) (hb : 0 < b.den) :
    (Frac.mul a b).IsCanon :=
  Frac.norm_canon (by show a.den * b.den ≠ 0; positivity)

theorem Frac.divNat_canon {a : Frac} {n : Nat} (ha : 0 < a.den) (hn : 0 < n) :
    (Frac.divNat a n).IsCanon :=
  Frac.norm_canon (by
    show a.den * (n : Int) ≠ 0
    have : (0 : Int) < (n : Int) := by exact_mod_cast hn
    positivity)

theorem Frac.lt_iff {a b : Frac} (ha : 0 < a.den) (hb : 0 < b.den) :
    Frac.lt a b = true ↔ a.toRat < b.toRat := by
  unfold Frac.lt Frac.toRat
  have ha' : (0 : ℚ) < (a.den : ℚ) := by exact_mod_cast ha
  have hb' : (0 : ℚ) < (b.den : ℚ) := by exact_mod_cast hb
  rw [div_lt_div_iff₀ ha' hb', decide_eq_true_eq]
  constructor
  · intro h
    exact_mod_cast h
  · intro h
    exact_mod_cast h

theorem Frac.beqVal_iff {a b : Frac} (ha : 0 < a.den) (hb : 0 < b.den) :
    Frac.beqVal a b = true ↔ a.toRat = b.toRat := by
  unfold Frac.beqVal Frac.toRat
  have ha' : ((a.den : ℚ)) ≠ 0 := by
    have : (0 : ℚ) < (a.den : ℚ) := by exact_mod_cast ha
    exact ne_of_gt this
  have hb' : ((b.den : ℚ)) ≠ 0 := by
    have : (0 : ℚ) < (b.den : ℚ) := by exact_mod_cast hb
    exact ne_of_gt this
  rw [div_eq_div_iff ha' hb', beq_iff_eq]
  constructor
  · intro h
    exact_mod_cast h
  · intro h
    exact_mod_cast h

/-- Canonical fractions with equal values are equal. -/
theorem Frac.canon_eq {a b : Frac} (ha : a.IsCanon) (hb : b.IsCanon)
    (h : a.toRat = b.toRat) : a = b := by
  obtain ⟨had, hag⟩ := ha
  obtain ⟨hbd, hbg⟩ := hb
  have hcross : a.num * b.den = b.num * a.den := by
    have := (Frac.beqVal_iff had hbd).2 h
    unfold Frac.beqVal at this
    rw [beq_iff_eq] at this
    exact this
  have hd1 : a.den ∣ b.den := by
    have h1 : a.den ∣ a.num * b.den := by
      rw [hcross]
      exact dvd_mul_left _ _
    exact Int.dvd_of_dvd_mul_right_of_gcd_one h1
      (by rw [Int.gcd_comm]; exact hag)
  have hd2 : b.den ∣ a.den := by
    have h1 : b.den ∣ b.num * a.den := by
      rw [← hcross]
      exact dvd_mul_left _ _
    exact Int.dvd_of_dvd_mul_right_of_gcd_one h1
      (by rw [Int.gcd_comm]; exact hbg)
  have hden : a.den = b.den := Int.dvd_antisymm (le_of_lt had) (le_of_lt hbd) hd1 hd2
  have hnum : a.num = b.num := by
    rw [hden] at hcross
    exact mul_right_cancel₀ (ne_of_gt hbd) hcross
  cases a
  cases b
  simp_all

theorem minF_mem (a b : Frac) : Frac.minF a b = a ∨ Frac.minF a b = b := by
  unfold Frac.minF
  by_cases h : Frac.lt b a = true
  · rw [if_pos h]; exact Or.inr rfl
  · rw [if_neg h]; exact Or.inl rfl

theorem maxF_mem (a b : Frac) : Frac.maxF a b = a ∨ Frac.maxF a b = b := by
  unfold Frac.maxF
  by_cases h : Frac.lt a b = true
  · rw [if_pos h]; exact Or.inr rfl
  · rw [if_neg h]; exact Or.inl rfl

theorem minF_le {a b : Frac} (ha : 0 < a.den) (hb : 0 < b.den) :
    (Frac.minF a b).toRat ≤ a.toRat ∧ (Frac.minF a b).toRat ≤ b.toRat := by
  unfold Frac.minF
  by_cases h : Frac.lt b a = true
  · rw [if_pos h]
    exact ⟨le_of_lt ((Frac.lt_iff hb ha).1 h), le_refl _⟩
  · rw [if_neg h]
    refine ⟨le_refl _, ?_⟩
    by_contra hlt
    push_neg at hlt
    exact h ((Frac.lt_iff hb ha).2 hlt)

theorem maxF_ge {a b : Frac} (ha : 0 < a.den) (hb : 0 < b.den) :
    a.toRat ≤ (Frac.maxF a b).toRat ∧ b.toRat ≤ (Frac.maxF a b).toRat := by
  unfold Frac.maxF
  by_cases h : Frac.lt a b = true
  · rw [if_pos h]
    exact ⟨le_of_lt ((Frac.lt_iff ha hb).1 h), le_refl _⟩
  · rw [if_neg h]
    refine ⟨le_refl _, ?_⟩
    by_contra hlt
    push_neg at hlt
    exact h ((Frac.lt_iff ha hb).2 hlt)

theorem foldl_minF_mem : ∀ (xs : List Frac) (x : Frac),
    xs.foldl Frac.minF x ∈ x :: xs := by
  intro xs
  induction xs with
  | nil => intro x; exact List.mem_singleton.2 rfl
  | cons y ys ih =>
    intro x
    rw [List.foldl_cons]
    rcases List.mem_cons.1 (ih (Frac.minF x y)) with h | h
    · rcases minF_mem x y with h' | h'
      · rw [h, h']
        exact List.mem_cons_self _ _
      · rw [h, h']
        exact List.mem_cons_of_mem _ (List.mem_cons_self _ _)
    · exact List.mem_cons_of_mem _ (List.mem_cons_of_mem _ h)

theorem foldl_maxF_mem : ∀ (xs : List Frac) (x : Frac),
    xs.foldl Frac.maxF x ∈ x :: xs := by
  intro xs
  induction xs with
  | nil => intro x; exact List.mem_singleton.2 rfl
  | cons y ys ih =>
    intro x
    rw [List.foldl_cons]
    rcases List.mem_cons.1 (ih (Frac.maxF x y)) with h | h
    · rcases maxF_mem x y with h' | h'
      · rw [h, h']
        exact List.mem_cons_self _ _
      · rw [h, h']
        exact List.mem_cons_of_mem _ (List.mem_cons_self _ _)
    · exact List.mem_cons_of_mem _ (List.mem_cons_of_mem _ h)

theorem foldl_minF_le : ∀ (xs : List Frac) (x : Frac),
    (∀ z ∈ x :: xs, 0 < z.den) →
    ∀ z ∈ x :: xs, (xs.foldl Frac.minF x).toRat ≤ z.toRat := by
  intro xs
  induction xs with
  | nil =>
    intro x _ z hz
    rw [List.mem_singleton.1 hz]
    exact le_refl _
  | cons y ys ih =>
    intro x hden z hz
    have hdx : 0 < x.den := hden x (List.mem_cons_self _ _)
    have hdy : 0 < y.den := hden y (List.mem_cons_of_mem _ (List.mem_cons_self _ _))
    have hdm : 0 < (Frac.minF x y).den := by
      rcases minF_mem x y with h | h <;> rw [h]
      · exact hdx
      · exact hdy
    have hden' : ∀ w ∈ Frac.minF x y :: ys, 0 < w.den := by
      intro w hw
      rcases List.mem_cons.1 hw with rfl | hw'
      · exact hdm
      · exact hden w (List.mem_cons_of_mem _ (List.mem_cons_of_mem _ hw'))
    rw [List.foldl_cons]
    have hbound := ih (Frac.minF x y) hden'
    have hself := hbound (Frac.minF x y) (List.mem_cons_self _ _)
    rcases List.mem_cons.1 hz with rfl | hz'
    · exact le_trans hself (minF_le hdx hdy).1
    · rcases List.mem_cons.1 hz' with rfl | hz''
      · exact le_trans hself (minF_le hdx hdy).2
      · exact hbound z (List.mem_cons_of_mem _ hz'')

theorem foldl_maxF_ge : ∀ (xs : List Frac) (x : Frac),
    (∀ z ∈ x :: xs, 0 < z.den) →
    ∀ z ∈ x :: xs, z.toRat ≤ (xs.foldl Frac.maxF x).toRat := by
  intro xs
  induction xs with
  | nil =>
    intro x _ z hz
    rw [List.mem_singleton.1 hz]
    exact le_refl _
  | cons y ys ih =>
    intro x hden z hz
    have hdx : 0 < x.den := hden x (List.mem_cons_self _ _)
    have hdy : 0 < y.den := hden y (List.mem_cons_of_mem _ (List.mem_cons_self _ _))
    have hdm : 0 < (Frac.maxF x y).den := by
      rcases maxF_mem x y with h | h <;> rw [h]
      · exact hdx
      · exact hdy
    have hden' : ∀ w ∈ Frac.maxF x y :: ys, 0 < w.den := by
      intro w hw
      rcases List.mem_cons.1 hw with rfl | hw'
      · exact hdm
      · exact hden w (List.mem_cons_of_mem _ (List.mem_cons_of_mem _ hw'))
    rw [List.foldl_cons]
    have hbound := ih (Frac.maxF x y) hden'
    have hself := hbound (Frac.maxF x y) (List.mem_cons_self _ _)
    rcases List.mem_cons.1 hz with rfl | hz'
    · exact le_trans (maxF_ge hdx hdy).1 hself
    · rcases List.mem_cons.1 hz' with rfl | hz''
      · exact le_trans (maxF_ge hdx hdy).2 hself
      · exact hbound z (List.mem_cons_of_mem _ hz'')

theorem listMinFrac_spec {l : List Frac} (hne : l ≠ [])
    (hden : ∀ z ∈ l, 0 < z.den) :
    listMinFrac l ∈ l ∧ ∀ z ∈ l, (listMinFrac l).toRat ≤ z.toRat := by
  cases l with
  | nil => exact absurd rfl hne
  | cons x xs => exact ⟨foldl_minF_mem xs x, foldl_minF_le xs x hden⟩

theorem listMaxFrac_spec {l : List Frac} (hne : l ≠ [])
    (hden : ∀ z ∈ l, 0 < z.den) :
    listMaxFrac l ∈ l ∧ ∀ z ∈ l, z.toRat ≤ (listMaxFrac l).toRat := by
  cases l with
  | nil => exact absurd rfl hne
  | cons x xs => exact ⟨foldl_maxF_mem xs x, foldl_maxF_ge xs x hden⟩

/-- `Math.min(...xs)` is permutation-invariant on canonical values. -/
theorem listMinFrac_perm {l₁ l₂ : List Frac} (hp : l₁.Perm l₂)
    (hc : ∀ z ∈ l₁, z.IsCanon) (hne : l₁ ≠ []) :
    listMinFrac l₁ = listMinFrac l₂ := by
  have hne₂ : l₂ ≠ [] := by
    intro h
    exact hne (List.Perm.eq_nil (h ▸ hp))
  have hc₂ : ∀ z ∈ l₂, z.IsCanon := fun z hz => hc z (hp.mem_iff.2 hz)
  have hden₁ : ∀ z ∈ l₁, 0 < z.den := fun z hz => (hc z hz).1
  have hden₂ : ∀ z ∈ l₂, 0 < z.den := fun z hz => (hc₂ z hz).1
  obtain ⟨hm₁, hb₁⟩ := listMinFrac_spec hne hden₁
  obtain ⟨hm₂, hb₂⟩ := listMinFrac_spec hne₂ hden₂
  refine Frac.canon_eq (hc _ hm₁) (hc₂ _ hm₂) (le_antisymm ?_ ?_)
  · exact hb₁ _ (hp.mem_iff.2 hm₂)
  · exact hb₂ _ (hp.mem_iff.1 hm₁)

/-- `Math.max(...xs)` is permutation-invariant on canonical values. -/
theorem listMaxFrac_perm {l₁ l₂ : List Frac} (hp : l₁.Perm l₂)
    (hc : ∀ z ∈ l₁, z.IsCanon) (hne : l₁ ≠ []) :
    listMaxFrac l₁ = listMaxFrac l₂ := by
  have hne₂ : l₂ ≠ [] := by
    intro h
    exact hne (List.Perm.eq_nil (h ▸ hp))
  have hc₂ : ∀ z ∈ l₂, z.IsCanon := fun z hz => hc z (hp.mem_iff.2 hz)
  have hden₁ : ∀ z ∈ l₁, 0 < z.den := fun z hz => (hc z hz).1
  have hden₂ : ∀ z ∈ l₂, 0 < z.den := fun z hz => (hc₂ z hz).1
  obtain ⟨hm₁, hb₁⟩ := listMaxFrac_spec hne hden₁
  obtain ⟨hm₂, hb₂⟩ := listMaxFrac_spec hne₂ hden₂
  refine Frac.canon_eq (hc _ hm₁) (hc₂ _ hm₂) (le_antisymm ?_ ?_)
  · exact hb₂ _ (hp.mem_iff.1 hm₁)
  · exact hb₁ _ (hp.mem_iff.2 hm₂)

theorem contains_perm {l₁ l₂ : List String} (hp : l₁.Perm l₂) (a : String) :
    l₁.contains a = l₂.contains a := by
  rw [Bool.eq_iff_iff]
  constructor <;> intro h
  · have h' : a ∈ l₁ := by simpa using h
    simpa using hp.mem_iff.1 h'
  · have h' : a ∈ l₂ := by simpa using h
    simpa using hp.mem_iff.2 h'

theorem personFind_perm {l₁ l₂ : List Person} (hnd : (l₁.map Person.id).Nodup)
    (hp : l₁.Perm l₂) (i : String) : personFind l₁ i = personFind l₂ i := by
  have hnd₂ : (l₂.map Person.id).Nodup := ((hp.map Person.id).nodup_iff).1 hnd
  match h1 : personFind l₁ i with
  | some p =>
    obtain ⟨hpm, hpid⟩ := personFind_eq_some h1
    rw [← hpid]
    exact (personFind_self hnd₂ (hp.mem_iff.1 hpm)).symm
  | none =>
    have hni : i ∉ l₁.map Person.id := by
      intro hmem
      have hs := @personFind_isSome l₁ i hmem
      rw [h1] at hs
      simp at hs
    match h2 : personFind l₂ i with
    | none => rfl
    | some q =>
      obtain ⟨hqm, hqid⟩ := personFind_eq_some h2
      exact absurd (hqid ▸ List.mem_map_of_mem Person.id (hp.mem_iff.2 hqm)) hni

theorem genSpecF_perm {l₁ l₂ : List Person} (hnd : (l₁.map Person.id).Nodup)
    (hp : l₁.Perm l₂) : ∀ (f : Nat) (i : String), genSpecF l₁ f i = genSpecF l₂ f i := by
  intro f
  induction f with
  | zero => intro i; rfl
  | succ f ih =>
    intro i
    simp only [genSpecF]
    rw [personFind_perm hnd hp i]
    match hfind : personFind l₂ i with
    | none => simp only [hfind]
    | some p =>
      simp only [hfind]
      have hfiltereq : p.parentIds.filter (fun pid => (l₁.map Person.id).contains pid)
          = p.parentIds.filter (fun pid => (l₂.map Person.id).contains pid) :=
        List.filter_congr (fun a _ => contains_perm (hp.map Person.id) a)
      rw [← hfiltereq]
      match hps : p.parentIds.filter (fun pid => (l₁.map Person.id).contains pid) with
      | [] => simp only [hps]
      | q :: qs =>
        simp only [hps]
        rw [List.map_congr_left (fun pid _ => ih pid)]

theorem ParentRank_perm {l₁ l₂ : List Person} (hp : l₁.Perm l₂) {D : String → Nat}
    (hD : ParentRank l₁ D) : ParentRank l₂ D := by
  intro p hpmem pid hpid hmem
  exact hD p (hp.mem_iff.2 hpmem) pid hpid ((hp.map Person.id).mem_iff.2 hmem)

/-- The generation map is the recurrence restricted to present ids. -/
theorem gens_lookup_eq {l : List Person} {D : String → Nat} (hD : ParentRank l D) :
    ∀ i, genLookup (assignGenerations l) i
      = if i ∈ l.map Person.id then some (genSpecF l (D i + 1) i) else none := by
  obtain ⟨hgood, hdef⟩ := assignGenerations_correct hD
  intro i
  by_cases hi : i ∈ l.map Person.id
  · rw [if_pos hi]
    obtain ⟨g, hg⟩ := Option.isSome_iff_exists.1 (hdef i hi)
    obtain ⟨_, hgv⟩ := goodMem_lookup hgood hg
    rw [hg, hgv]
  · rw [if_neg hi]
    match hg : genLookup (assignGenerations l) i with
    | none => rfl
    | some g =>
      obtain ⟨hmem, _⟩ := goodMem_lookup hgood hg
      exact absurd hmem hi

/-- Generations are insertion-order independent (on acyclic unique-id inputs). -/
theorem gens_lookup_perm_eq {l₁ l₂ : List Person} {D : String → Nat}
    (hp : l₁.Perm l₂) (hnd : (l₁.map Person.id).Nodup) (hD : ParentRank l₁ D) :
    ∀ i, genLookup (assignGenerations l₁) i = genLookup (assignGenerations l₂) i := by
  intro i
  rw [gens_lookup_eq hD i, gens_lookup_eq (ParentRank_perm hp hD) i]
  by_cases hi : i ∈ l₁.map Person.id
  · rw [if_pos hi, if_pos ((hp.map Person.id).mem_iff.1 hi),
      genSpecF_perm hnd hp]
  · rw [if_neg hi, if_neg (fun h => hi ((hp.map Person.id).mem_iff.2 h))]

theorem assoc_find_of_mem_nodup {β : Type} {m : List (String × β)}
    (hnd : (m.map Prod.fst).Nodup) {a : String} {v : β} (hm : (a, v) ∈ m) :
    m.find? (fun e => e.1 = a) = some (a, v) := by
  induction m with
  | nil => exact absurd hm (List.not_mem_nil _)
  | cons e es ih =>
    rw [List.map_cons, List.nodup_cons] at hnd
    by_cases he : e.1 = a
    · rcases List.mem_cons.1 hm with rfl | htail
      · simp [List.find?_cons]
      · exfalso
        have : a ∈ es.map Prod.fst := List.mem_map.2 ⟨(a, v), htail, rfl⟩
        exact hnd.1 (he ▸ this)
    · have htail : (a, v) ∈ es := by
        rcases List.mem_cons.1 hm with rfl | h
        · exact absurd rfl he
        · exact h
      simp only [List.find?_cons, decide_eq_false he]
      exact ih hnd.2 htail

theorem genLookup_some_mem {m : GenMap} {a : String} {v : Nat}
    (h : genLookup m a = some v) : (a, v) ∈ m := by
  unfold genLookup at h
  rcases Option.map_eq_some'.1 h with ⟨e, hfind, hval⟩
  have hkey : e.1 = a := by simpa using List.find?_some hfind
  have hmem := List.mem_of_find?_eq_some hfind
  have he : e = (a, v) := by
    cases e
    simp_all
  exact he ▸ hmem

theorem genLookup_of_mem {m : GenMap} (hnd : (m.map Prod.fst).Nodup)
    {a : String} {v : Nat} (hm : (a, v) ∈ m) : genLookup m a = some v := by
  unfold genLookup
  rw [assoc_find_of_mem_nodup hnd hm]
  rfl

/-- All values stored in an x-position map are canonical. -/
def XGood (m : XMap) : Prop := ∀ e ∈ m, (e.2).IsCanon

theorem mem_xSet {m : XMap} {k : String} {v : Frac} {e : String × Frac}
    (he : e ∈ xSet m k v) : e = (k, v) ∨ e ∈ m := by
  unfold xSet at he
  by_cases hany : m.any (fun x => x.1 = k)
  · rw [if_pos hany] at he
    rcases List.mem_map.1 he with ⟨x, hx, hxe⟩
    by_cases hxk : x.1 = k
    · rw [if_pos hxk] at hxe
      exact Or.inl hxe.symm
    · rw [if_neg hxk] at hxe
      exact Or.inr (hxe ▸ hx)
  · rw [if_neg hany] at he
    rcases List.mem_append.1 he with h | h
    · exact Or.inr h
    · exact Or.inl (List.mem_singleton.1 h)

theorem xgood_xSet {m : XMap} {k : String} {v : Frac}
    (hm : XGood m) (hv : v.IsCanon) : XGood (xSet m k v) := by
  intro e he
  rcases mem_xSet he with rfl | he'
  · exact hv
  · exact hm e he'

theorem xLookup_canon {m : XMap} (hm : XGood m) {i : String} {v : Frac}
    (h : xLookup m i = some v) : v.IsCanon := by
  unfold xLookup at h
  rcases Option.map_eq_some'.1 h with ⟨e, hfind, hval⟩
  exact hval ▸ hm e (List.mem_of_find?_eq_some hfind)

theorem getD_canon {m : XMap} (hm : XGood m) (i : String) :
    ((xLookup m i).getD (Frac.ofInt 0)).IsCanon := by
  match h : xLookup m i with
  | none => exact Frac.ofInt_canon 0
  | some v => exact xLookup_canon hm h

theorem avgX_canon {m : XMap} (hm : XGood m) (idList : List String) :
    (avgX idList m).IsCanon := by
  unfold avgX
  by_cases h : (idList.filter (fun i => (xLookup m i).isSome)).length = 0
  · rw [if_pos h]
    exact Frac.ofInt_canon 0
  · rw [if_neg h]
    have hfold : ∀ (l : List String) (s : Frac), s.IsCanon →
        (l.foldl (fun s i => Frac.add s ((xLookup m i).getD (Frac.ofInt 0))) s).IsCanon := by
      intro l
      induction l with
      | nil => intro s hs; exact hs
      | cons i is ih =>
        intro s hs
        rw [List.foldl_cons]
        exact ih _ (Frac.add_canon hs.1 (getD_canon hm i).1)
    exact Frac.divNat_canon (hfold _ _ (Frac.ofInt_canon 0)).1 (Nat.pos_of_ne_zero h)

theorem xgood_foldl {β : Type} {f : XMap → β → XMap}
    (hf : ∀ m b, XGood m → XGood (f m b)) :
    ∀ (l : List β) (m : XMap), XGood m → XGood (l.foldl f m) := by
  intro l
  induction l with
  | nil => intro m hm; exact hm
  | cons b bs ih =>
    intro m hm
    rw [List.foldl_cons]
    exact ih _ (hf m b hm)

theorem xgood_assignRow {sorted : List String} {m : XMap} (hm : XGood m) :
    XGood (assignRow sorted m) := by
  unfold assignRow
  exact xgood_foldl (fun m e hme => xgood_xSet hme (Frac.ofInt_canon _)) _ _ hm

theorem xgood_centerGroup {group : List String} {m : XMap} (hm : XGood m) :
    XGood (centerGroup group m) := by
  unfold centerGroup
  match group with
  | [] => exact hm
  | a :: rest =>
    have hxs : ∀ z ∈ (a :: rest).map (fun i => (xLookup m i).getD (Frac.ofInt 0)),
        z.IsCanon := by
      intro z hz
      rcases List.mem_map.1 hz with ⟨i, _, rfl⟩
      exact getD_canon hm i
    have hne : (a :: rest).map (fun i => (xLookup m i).getD (Frac.ofInt 0)) ≠ [] := by
      simp
    have hmid : (Frac.divNat
        (Frac.add
          (listMinFrac ((a :: rest).map (fun i => (xLookup m i).getD (Frac.ofInt 0))))
          (listMaxFrac ((a :: rest).map (fun i => (xLookup m i).getD (Frac.ofInt 0)))))
        2).IsCanon := by
      have hden : ∀ z ∈ (a :: rest).map (fun i => (xLookup m i).getD (Frac.ofInt 0)),
          0 < z.den := fun z hz => (hxs z hz).1
      have h1 := (hxs _ (listMinFrac_spec hne hden).1).1
      have h2 := (hxs _ (listMaxFrac_spec hne hden).1).1
      exact Frac.divNat_canon (Frac.add_canon h1 h2).1 (by norm_num)
    exact xgood_foldl
      (fun m' i hm' => xgood_xSet hm' (Frac.sub_canon (getD_canon hm' i).1 hmid.1))
      _ _ hm

theorem xgood_overlapWalk : ∀ (rest : List String) (prevX : Frac) (m : XMap),
    XGood m → 0 < prevX.den → XGood (overlapWalk rest prevX m) := by
  intro rest
  induction rest with
  | nil => intro prevX m hm _; exact hm
  | cons b bs ih =>
    intro prevX m hm hprev
    unfold overlapWalk
    by_cases h : Frac.lt (Frac.sub ((xLookup m b).getD (Frac.ofInt 0)) prevX)
        (Frac.ofInt (NODE_W + GAP_H)) = true
    · rw [if_pos h]
      have hadd : (Frac.add prevX (Frac.ofInt (NODE_W + GAP_H))).IsCanon :=
        Frac.add_canon hprev (Frac.ofInt_canon _).1
      exact ih _ _ (xgood_xSet hm hadd) hadd.1
    · rw [if_neg h]
      exact ih _ _ hm (getD_canon hm b).1

theorem xgood_resolveOverlaps {group : List String} {m : XMap} (hm : XGood m) :
    XGood (resolveOverlaps group m) := by
  unfold resolveOverlaps
  by_cases h : group.length ≤ 1
  · rw [if_pos h]
    exact hm
  · rw [if_neg h]
    match stableSort (fun a b =>
        Frac.le ((xLookup m a).getD (Frac.ofInt 0)) ((xLookup m b).getD (Frac.ofInt 0)))
        group with
    | [] => exact hm
    | a :: rest => exact xgood_overlapWalk rest _ m hm (getD_canon hm a).1

theorem bool_eq_false {b : Bool} (h : ¬ b = true) : b = false := by
  cases b
  · rfl
  · exact absurd rfl h

theorem charListLt_notlt_trans {a b c : List Char} (h1 : charListLt b a = false)
    (h2 : charListLt c b = false) : charListLt c a = false := by
  by_contra h
  have hca : charListLt c a = true := by
    revert h
    cases charListLt c a <;> simp
  by_cases hab : charListLt a b = true
  · by_cases hbc : charListLt b c = true
    · have := charListLt_trans a b c hab hbc
      rw [charListLt_asymm c a hca] at this
      exact absurd this (by simp)
    · have hbceq : b = c := charListLt_conn b c (bool_eq_false hbc) h2
      rw [hbceq] at h1
      rw [h1] at hca
      exact absurd hca (by simp)
  · have haeq : a = b := charListLt_conn a b (bool_eq_false hab) h1
    rw [← haeq] at h2
    rw [h2] at hca
    exact absurd hca (by simp)

/-- The pass-1 sort key x-component of an id (average parent x). -/
def p1x (people : List Person) (idsList : List String) (m : XMap) (a : String) : Frac :=
  avgX ((((personFind people a).getD defaultPerson).parentIds).filter
    (fun pid => idsList.contains pid)) m

/-- The pass-1 sort key name component of an id. -/
def p1name (people : List Person) (a : String) : String :=
  nameKey ((personFind people a).getD defaultPerson)

theorem pass1Le_eq (people : List Person) (idsList : List String) (m : XMap)
    (a b : String) :
    pass1Le people idsList m a b
      = (if !(Frac.beqVal (p1x people idsList m a) (p1x people idsList m b))
         then Frac.lt (p1x people idsList m a) (p1x people idsList m b)
         else !(jsStrLt (p1name people b) (p1name people a))) := rfl

/-- The pass-1 comparator is the lexicographic order on (parent average,
name key). -/
theorem pass1Le_iff {people : List Person} {idsList : List String} {m : XMap}
    (hm : XGood m) (a b : String) :
    pass1Le people idsList m a b = true ↔
      ((p1x people idsList m a).toRat < (p1x people idsList m b).toRat
        ∨ ((p1x people idsList m a).toRat = (p1x people idsList m b).toRat
            ∧ jsStrLt (p1name people b) (p1name people a) = false)) := by
  have hca : (p1x people idsList m a).IsCanon := avgX_canon hm _
  have hcb : (p1x people idsList m b).IsCanon := avgX_canon hm _
  rw [pass1Le_eq]
  by_cases hbeq : Frac.beqVal (p1x people idsList m a) (p1x people idsList m b) = true
  · have heq : (p1x people idsList m a).toRat = (p1x people idsList m b).toRat :=
      (Frac.beqVal_iff hca.1 hcb.1).1 hbeq
    rw [hbeq]
    simp only [Bool.not_true, Bool.false_eq_true, if_false]
    constructor
    · intro h
      right
      refine ⟨heq, ?_⟩
      revert h
      cases jsStrLt (p1name people b) (p1name people a) <;> simp
    · intro h
      rcases h with h | ⟨_, h2⟩
      · exact absurd h (by rw [heq]; exact lt_irrefl _)
      · rw [h2]
        rfl
  · have hne : (p1x people idsList m a).toRat ≠ (p1x people idsList m b).toRat :=
      fun h => hbeq ((Frac.beqVal_iff hca.1 hcb.1).2 h)
    rw [bool_eq_false hbeq]
    simp only [Bool.not_false, if_true]
    rw [Frac.lt_iff hca.1 hcb.1]
    constructor
    · intro h
      exact Or.inl h
    · rintro (h | ⟨heq, _⟩)
      · exact h
      · exact absurd heq hne

theorem pass1Le_total {people : List Person} {idsList : List String} {m : XMap}
    (hm : XGood m) (a b : String) :
    pass1Le people idsList m a b = true ∨ pass1Le people idsList m b a = true := by
  rw [pass1Le_iff hm, pass1Le_iff hm]
  rcases lt_trichotomy (p1x people idsList m a).toRat (p1x people idsList m b).toRat
    with h | h | h
  · exact Or.inl (Or.inl h)
  · by_cases hs : jsStrLt (p1name people b) (p1name people a) = true
    · exact Or.inr (Or.inr ⟨h.symm, charListLt_asymm _ _ hs⟩)
    · exact Or.inl (Or.inr ⟨h, bool_eq_false hs⟩)
  · exact Or.inr (Or.inl h)

theorem pass1Le_trans {people : List Person} {idsList : List String} {m : XMap}
    (hm : XGood m) (a b c : String)
    (h1 : pass1Le people idsList m a b = true)
    (h2 : pass1Le people idsList m b c = true) :
    pass1Le people idsList m a c = true := by
  rw [pass1Le_iff hm] at h1 h2 ⊢
  rcases h1 with h1 | ⟨e1, s1⟩
  · rcases h2 with h2 | ⟨e2, _⟩
    · exact Or.inl (lt_trans h1 h2)
    · exact Or.inl (lt_of_lt_of_eq h1 e2)
  · rcases h2 with h2 | ⟨e2, s2⟩
    · exact Or.inl (lt_of_eq_of_lt e1 h2)
    · exact Or.inr ⟨e1.trans e2, charListLt_notlt_trans s1 s2⟩

theorem pass1Le_antisymm {people : List Person} {m : XMap}
    (hm : XGood m) (hnd : (people.map Person.id).Nodup)
    (hname : ∀ p ∈ people, ∀ q ∈ people, nameKey p = nameKey q → p.id = q.id)
    (a b : String) (ha : a ∈ people.map Person.id) (hb : b ∈ people.map Person.id)
    (h1 : pass1Le people (people.map Person.id) m a b = true)
    (h2 : pass1Le people (people.map Person.id) m b a = true) : a = b := by
  rw [pass1Le_iff hm] at h1 h2
  rcases List.mem_map.1 ha with ⟨pa, hpa, rfl⟩
  rcases List.mem_map.1 hb with ⟨pb, hpb, rfl⟩
  have hfa : personFind people pa.id = some pa := personFind_self hnd hpa
  have hfb : personFind people pb.id = some pb := personFind_self hnd hpb
  rcases h1 with h1 | ⟨e1, s1⟩
  · rcases h2 with h2 | ⟨e2, _⟩
    · exact absurd (lt_trans h1 h2) (lt_irrefl _)
    · exact absurd e2 (ne_of_gt h1)
  · rcases h2 with h2 | ⟨_, s2⟩
    · exact absurd e1 (ne_of_gt h2)
    · have hkeys : p1name people pb.id = p1name people pa.id := jsStrLt_conn s1 s2
      unfold p1name at hkeys
      rw [hfa, hfb] at hkeys
      exact (hname pa hpa pb hpb (by simpa using hkeys.symm)).symm ▸ rfl

/-- The pass-1 comparator only depends on the person set. -/
theorem pass1Le_congr {l₁ l₂ : List Person} (hnd : (l₁.map Person.id).Nodup)
    (hp : l₁.Perm l₂) (m : XMap) :
    pass1Le l₁ (l₁.map Person.id) m = pass1Le l₂ (l₂.map Person.id) m := by
  funext a b
  rw [pass1Le_eq, pass1Le_eq]
  have hx : ∀ c, p1x l₁ (l₁.map Person.id) m c = p1x l₂ (l₂.map Person.id) m c := by
    intro c
    unfold p1x
    rw [personFind_perm hnd hp c]
    congr 1
    exact List.filter_congr (fun x _ => contains_perm (hp.map Person.id) x)
  have hn : ∀ c, p1name l₁ c = p1name l₂ c := by
    intro c
    unfold p1name
    rw [personFind_perm hnd hp c]
  rw [hx a, hx b, hn a, hn b]

/-- The pass-1 sort of a layer is order-independent. -/
theorem pass1_sorted_eq {l₁ l₂ : List Person} (hperm : l₁.Perm l₂)
    (hnd : (l₁.map Person.id).Nodup)
    (hname : ∀ p ∈ l₁, ∀ q ∈ l₁, nameKey p = nameKey q → p.id = q.id)
    {m : XMap} (hm : XGood m)
    {g₁ g₂ : List String} (hp : g₁.Perm g₂)
    (hSg : ∀ i ∈ g₁, i ∈ l₁.map Person.id) :
    stableSort (pass1Le l₁ (l₁.map Person.id) m) g₁
      = stableSort (pass1Le l₂ (l₂.map Person.id) m) g₂ := by
  rw [← pass1Le_congr hnd hperm m]
  exact @stableSort_eq_of_perm String (pass1Le l₁ (l₁.map Person.id) m)
    (fun i => i ∈ l₁.map Person.id)
    (fun a b _ _ => pass1Le_total hm a b)
    (fun a b c _ _ _ h1 h2 => pass1Le_trans hm a b c h1 h2)
    (fun a b ha hb h1 h2 => pass1Le_antisymm hm hnd hname a b ha hb h1 h2)
    _ _ hp hSg

/-- The pass-1 fold: permuted layer contents (over a permuted person list)
give literally equal accumulated groups and x-maps. -/
theorem pass1_fold_eq {l₁ l₂ : List Person} (hperm : l₁.Perm l₂)
    (hnd : (l₁.map Person.id).Nodup)
    (hname : ∀ p ∈ l₁, ∀ q ∈ l₁, nameKey p = nameKey q → p.id = q.id)
    {G₁ G₂ : List (Nat × List String)}
    (hF : List.Forall₂ (fun e₁ e₂ => e₁.1 = e₂.1 ∧ e₁.2.Perm e₂.2 ∧
      (∀ i ∈ e₁.2, i ∈ l₁.map Person.id)) G₁ G₂) :
    ∀ (acc : List (Nat × List String) × XMap), XGood acc.2 →
      (G₁.foldl (fun acc entry =>
        let sorted := stableSort (pass1Le l₁ (l₁.map Person.id) acc.2) entry.2
        let m1 := assignRow sorted acc.2
        let m2 := centerGroup sorted m1
        (acc.1 ++ [(entry.1, sorted)], m2)) acc)
      = (G₂.foldl (fun acc entry =>
        let sorted := stableSort (pass1Le l₂ (l₂.map Person.id) acc.2) entry.2
        let m1 := assignRow sorted acc.2
        let m2 := centerGroup sorted m1
        (acc.1 ++ [(entry.1, sorted)], m2)) acc) ∧
      XGood ((G₁.foldl (fun acc entry =>
        let sorted := stableSort (pass1Le l₁ (l₁.map Person.id) acc.2) entry.2
        let m1 := assignRow sorted acc.2
        let m2 := centerGroup sorted m1
        (acc.1 ++ [(entry.1, sorted)], m2)) acc)).2 := by
  induction hF with
  | nil =>
    intro acc hacc
    exact ⟨rfl, hacc⟩
  | @cons e₁ e₂ t₁ t₂ hrel htail ih =>
    intro acc hacc
    obtain ⟨hkey, hgperm, hgS⟩ := hrel
    simp only [List.foldl_cons]
    have hsorted : stableSort (pass1Le l₁ (l₁.map Person.id) acc.2) e₁.2
        = stableSort (pass1Le l₂ (l₂.map Person.id) acc.2) e₂.2 :=
      pass1_sorted_eq hperm hnd hname hacc hgperm hgS
    rw [hsorted, hkey]
    exact ih _ (xgood_centerGroup (xgood_assignRow hacc))

/-- Pass 1 is order-independent given related group lists. -/
theorem pass1_eq {l₁ l₂ : List Person} (hperm : l₁.Perm l₂)
    (hnd : (l₁.map Person.id).Nodup)
    (hname : ∀ p ∈ l₁, ∀ q ∈ l₁, nameKey p = nameKey q → p.id = q.id)
    {G₁ G₂ : List (Nat × List String)}
    (hF : List.Forall₂ (fun e₁ e₂ => e₁.1 = e₂.1 ∧ e₁.2.Perm e₂.2 ∧
      (∀ i ∈ e₁.2, i ∈ l₁.map Person.id)) G₁ G₂) :
    pass1 l₁ (l₁.map Person.id) G₁ = pass1 l₂ (l₂.map Person.id) G₂ ∧
      XGood (pass1 l₁ (l₁.map Person.id) G₁).2 := by
  unfold pass1
  exact pass1_fold_eq hperm hnd hname hF ([], [])
    (fun e he => absurd he (List.not_mem_nil _))

theorem forall₂_map_same {α β : Type} {R : β → β → Prop} {f₁ f₂ : α → β} :
    ∀ {l : List α}, (∀ x ∈ l, R (f₁ x) (f₂ x)) →
      List.Forall₂ R (l.map f₁) (l.map f₂) := by
  intro l
  induction l with
  | nil => intro _; exact List.Forall₂.nil
  | cons x xs ih =>
    intro h
    exact List.Forall₂.cons (h x (List.mem_cons_self _ _))
      (ih (fun y hy => h y (List.mem_cons_of_mem _ hy)))

/-- Generation values present in a map, by lookup. -/
theorem mem_vals_iff_lookup {m : GenMap} (hnd : (m.map Prod.fst).Nodup) (g : Nat) :
    g ∈ m.map (fun e => e.2) ↔ ∃ i, genLookup m i = some g := by
  constructor
  · intro h
    rcases List.mem_map.1 h with ⟨e, he, rfl⟩
    exact ⟨e.1, genLookup_of_mem hnd he⟩
  · rintro ⟨i, hi⟩
    exact List.mem_map.2 ⟨(i, g), genLookup_some_mem hi, rfl⟩

/-- Group membership, by lookup. -/
theorem mem_group_iff_lookup {m : GenMap} (hnd : (m.map Prod.fst).Nodup)
    (g : Nat) (i : String) :
    i ∈ (m.filter (fun e => e.2 = g)).map (fun e => e.1) ↔
      genLookup m i = some g := by
  constructor
  · intro h
    rcases List.mem_map.1 h with ⟨e, he, rfl⟩
    rw [List.mem_filter] at he
    have hval : e.2 = g := by simpa using he.2
    exact genLookup_of_mem hnd (by rw [← hval]; exact he.1)
  · intro h
    refine List.mem_map.2 ⟨(i, g), ?_, rfl⟩
    rw [List.mem_filter]
    exact ⟨genLookup_some_mem h, by simp⟩

theorem layerKeysOf_eq {m₁ m₂ : GenMap}
    (hnd₁ : (m₁.map Prod.fst).Nodup) (hnd₂ : (m₂.map Prod.fst).Nodup)
    (hlook : ∀ i, genLookup m₁ i = genLookup m₂ i) :
    layerKeysOf m₁ = layerKeysOf m₂ := by
  unfold layerKeysOf
  have hmem : ∀ g : Nat, g ∈ (m₁.map (fun e => e.2)).dedup ↔
      g ∈ (m₂.map (fun e => e.2)).dedup := by
    intro g
    rw [List.mem_dedup, List.mem_dedup, mem_vals_iff_lookup hnd₁,
      mem_vals_iff_lookup hnd₂]
    constructor
    · rintro ⟨i, hi⟩
      exact ⟨i, (hlook i) ▸ hi⟩
    · rintro ⟨i, hi⟩
      exact ⟨i, (hlook i).symm ▸ hi⟩
  have hperm : ((m₁.map (fun e => e.2)).dedup).Perm ((m₂.map (fun e => e.2)).dedup) :=
    (List.perm_ext_iff_of_nodup (List.nodup_dedup _) (List.nodup_dedup _)).2 hmem
  exact @stableSort_eq_of_perm Nat (fun a b => decide (a ≤ b)) (fun _ => True)
    (fun a b _ _ => by
      rcases Nat.le_total a b with h | h
      · exact Or.inl (decide_eq_true h)
      · exact Or.inr (decide_eq_true h))
    (fun a b c _ _ _ h1 h2 =>
      decide_eq_true (le_trans (of_decide_eq_true h1) (of_decide_eq_true h2)))
    (fun a b _ _ h1 h2 =>
      le_antisymm (of_decide_eq_true h1) (of_decide_eq_true h2))
    _ _ hperm (fun _ _ => trivial)

/-- The per-generation groups of two lookup-equal generation maps are
pointwise permutations (with the stated side facts used by pass 1). -/
theorem groups0Of_rel {m₁ m₂ : GenMap} {idsL : List String}
    (hnd₁ : (m₁.map Prod.fst).Nodup) (hnd₂ : (m₂.map Prod.fst).Nodup)
    (hlook : ∀ i, genLookup m₁ i = genLookup m₂ i)
    (hP : ∀ e ∈ m₁, e.1 ∈ idsL) :
    List.Forall₂ (fun e₁ e₂ => e₁.1 = e₂.1 ∧ e₁.2.Perm e₂.2 ∧
      (∀ i ∈ e₁.2, i ∈ idsL)) (groups0Of m₁) (groups0Of m₂) := by
  unfold groups0Of
  rw [layerKeysOf_eq hnd₁ hnd₂ hlook]
  refine forall₂_map_same ?_
  intro g _
  refine ⟨rfl, ?_, ?_⟩
  · have hgnd₁ : ((m₁.filter (fun e => e.2 = g)).map (fun e => e.1)).Nodup := by
      have hsub : ((m₁.filter (fun e => e.2 = g)).map (fun e => e.1)).Sublist
          (m₁.map (fun e => e.1)) := (List.filter_sublist _).map _
      exact List.Nodup.sublist hsub hnd₁
    have hgnd₂ : ((m₂.filter (fun e => e.2 = g)).map (fun e => e.1)).Nodup := by
      have hsub : ((m₂.filter (fun e => e.2 = g)).map (fun e => e.1)).Sublist
          (m₂.map (fun e => e.1)) := (List.filter_sublist _).map _
      exact List.Nodup.sublist hsub hnd₂
    refine (List.perm_ext_iff_of_nodup hgnd₁ hgnd₂).2 ?_
    intro i
    rw [mem_group_iff_lookup hnd₁, mem_group_iff_lookup hnd₂, hlook i]
  · intro i hi
    have hg := (mem_group_iff_lookup hnd₁ g i).1 hi
    exact hP (i, g) (genLookup_some_mem hg)

theorem childrenOf_perm {l₁ l₂ : List Person} (hp : l₁.Perm l₂) (pid : String) :
    (childrenOf l₁ (l₁.map Person.id) pid).Perm
      (childrenOf l₂ (l₂.map Person.id) pid) := by
  unfold childrenOf
  have hfun : (fun p : Person =>
      (p.parentIds.filter (fun q => q = pid && (l₁.map Person.id).contains q)).map
        (fun _ => p.id))
      = (fun p : Person =>
      (p.parentIds.filter (fun q => q = pid && (l₂.map Person.id).contains q)).map
        (fun _ => p.id)) := by
    funext p
    congr 1
    exact List.filter_congr (fun q _ => by rw [contains_perm (hp.map Person.id) q])
  rw [hfun]
  exact List.Perm.flatMap_right _ hp

/-- One pass-2 layer is order-independent and keeps the map canonical. -/
theorem pass2Layer_eq {l₁ l₂ : List Person} (hp : l₁.Perm l₂)
    (group : List String) (m : XMap) (hm : XGood m) :
    pass2Layer l₁ (l₁.map Person.id) group m
      = pass2Layer l₂ (l₂.map Person.id) group m ∧
      XGood (pass2Layer l₁ (l₁.map Person.id) group m) := by
  unfold pass2Layer
  have key : ∀ (ids0 : List String) (m0 : XMap), XGood m0 →
      (ids0.foldl (fun m id =>
        let ch := (childrenOf l₁ (l₁.map Person.id) id).filter
          (fun cid => (xLookup m cid).isSome)
        match ch with
        | [] => m
        | _ :: _ =>
          let childXs := ch.map (fun cid => (xLookup m cid).getD (Frac.ofInt 0))
          xSet m id (Frac.divNat
            (Frac.add (listMinFrac childXs) (listMaxFrac childXs)) 2)) m0
      = ids0.foldl (fun m id =>
        let ch := (childrenOf l₂ (l₂.map Person.id) id).filter
          (fun cid => (xLookup m cid).isSome)
        match ch with
        | [] => m
        | _ :: _ =>
          let childXs := ch.map (fun cid => (xLookup m cid).getD (Frac.ofInt 0))
          xSet m id (Frac.divNat
            (Frac.add (listMinFrac childXs) (listMaxFrac childXs)) 2)) m0) ∧
      XGood (ids0.foldl (fun m id =>
        let ch := (childrenOf l₁ (l₁.map Person.id) id).filter
          (fun cid => (xLookup m cid).isSome)
        match ch with
        | [] => m
        | _ :: _ =>
          let childXs := ch.map (fun cid => (xLookup m cid).getD (Frac.ofInt 0))
          xSet m id (Frac.divNat
            (Frac.add (listMinFrac childXs) (listMaxFrac childXs)) 2)) m0) := by
    intro ids0
    induction ids0 with
    | nil => intro m0 hm0; exact ⟨rfl, hm0⟩
    | cons i is ih =>
      intro m0 hm0
      simp only [List.foldl_cons]
      have hchperm : ((childrenOf l₁ (l₁.map Person.id) i).filter
          (fun cid => (xLookup m0 cid).isSome)).Perm
          ((childrenOf l₂ (l₂.map Person.id) i).filter
          (fun cid => (xLookup m0 cid).isSome)) :=
        (childrenOf_perm hp i).filter _
      match hch1 : (childrenOf l₁ (l₁.map Person.id) i).filter
          (fun cid => (xLookup m0 cid).isSome) with
      | [] =>
        rw [hch1] at hchperm
        have hch2 := (List.Perm.eq_nil hchperm.symm)
        simp only [hch1, hch2]
        exact ih m0 hm0
      | c :: cs =>
        match hch2 : (childrenOf l₂ (l₂.map Person.id) i).filter
            (fun cid => (xLookup m0 cid).isSome) with
        | [] =>
          rw [hch1, hch2] at hchperm
          exact absurd (List.Perm.eq_nil hchperm) (by simp)
        | c' :: cs' =>
          rw [hch1, hch2] at hchperm
          simp only [hch1, hch2]
          have hxs : ((c :: cs).map
              (fun cid => (xLookup m0 cid).getD (Frac.ofInt 0))).Perm
              ((c' :: cs').map (fun cid => (xLookup m0 cid).getD (Frac.ofInt 0))) :=
            hchperm.map _
          have hcanon : ∀ z ∈ (c :: cs).map
              (fun cid => (xLookup m0 cid).getD (Frac.ofInt 0)), z.IsCanon := by
            intro z hz
            rcases List.mem_map.1 hz with ⟨cid, _, rfl⟩
            exact getD_canon hm0 cid
          have hmin := listMinFrac_perm hxs hcanon (by simp)
          have hmax := listMaxFrac_perm hxs hcanon (by simp)
          rw [hmin, hmax]
          have hcanon₂ : ∀ z ∈ (c' :: cs').map
              (fun cid => (xLookup m0 cid).getD (Frac.ofInt 0)), z.IsCanon :=
            fun z hz => hcanon z (hxs.mem_iff.2 hz)
          have hden₂ : ∀ z ∈ (c' :: cs').map
              (fun cid => (xLookup m0 cid).getD (Frac.ofInt 0)), 0 < z.den :=
            fun z hz => (hcanon₂ z hz).1
          have hminc := (hcanon₂ _ (listMinFrac_spec (by simp) hden₂).1).1
          have hmaxc := (hcanon₂ _ (listMaxFrac_spec (by simp) hden₂).1).1
          exact ih _ (xgood_xSet hm0
            (Frac.divNat_canon (Frac.add_canon hminc hmaxc).1 (by norm_num)))
  obtain ⟨hfold, hgood⟩ := key group m hm
  constructor
  · rw [hfold]
  · exact xgood_resolveOverlaps hgood

/-- Pass 2 is order-independent given equal sorted groups and maps. -/
theorem pass2_eq {l₁ l₂ : List Person} (hp : l₁.Perm l₂)
    (G : List (Nat × List String)) (m : XMap) (hm : XGood m) :
    pass2 l₁ (l₁.map Person.id) G m = pass2 l₂ (l₂.map Person.id) G m ∧
      XGood (pass2 l₁ (l₁.map Person.id) G m) := by
  unfold pass2
  have key : ∀ (L : List (Nat × List String)) (m0 : XMap), XGood m0 →
      (L.foldl (fun m e => pass2Layer l₁ (l₁.map Person.id) e.2 m) m0
        = L.foldl (fun m e => pass2Layer l₂ (l₂.map Person.id) e.2 m) m0) ∧
      XGood (L.foldl (fun m e => pass2Layer l₁ (l₁.map Person.id) e.2 m) m0) := by
    intro L
    induction L with
    | nil => intro m0 hm0; exact ⟨rfl, hm0⟩
    | cons e es ih =>
      intro m0 hm0
      simp only [List.foldl_cons]
      obtain ⟨hstep, hgood⟩ := pass2Layer_eq hp e.2 m0 hm0
      rw [hstep] at hgood ⊢
      exact ih _ hgood
  exact key G.reverse m hm

/-- Pass 3 only depends on the person set. -/
theorem pass3_eq {l₁ l₂ : List Person} (hnd : (l₁.map Person.id).Nodup)
    (hp : l₁.Perm l₂) (G : List (Nat × List String)) (m : XMap) :
    pass3 l₁ G m = pass3 l₂ G m := by
  have hpf : personFind l₁ = personFind l₂ := funext (personFind_perm hnd hp)
  unfold pass3 pass3Layer
  rw [hpf]

/-- C6 (amended): for input lists holding the same persons in different
orders, `computeLayout` is order-independent — every person gets the same
generation and the same position — provided the persons have unique ids,
the present parent edges are acyclic (rank function `D`; otherwise even the
generations depend on traversal order), and the pass-1 name keys are
injective (otherwise the counterexample above applies: the sort cannot
separate equally keyed persons and falls back to input order). -/
theorem computeLayout_deterministic {l₁ l₂ : List Person} {D : String → Nat}
    (hperm : l₁.Perm l₂) (hnd : (l₁.map Person.id).Nodup)
    (hD : ParentRank l₁ D)
    (hname : ∀ p ∈ l₁, ∀ q ∈ l₁, nameKey p = nameKey q → p.id = q.id) :
    (computeLayout l₁).positions = (computeLayout l₂).positions ∧
      ∀ i, genLookup (assignGenerations l₁) i = genLookup (assignGenerations l₂) i := by
  have hgens := gens_lookup_perm_eq hperm hnd hD
  refine ⟨?_, hgens⟩
  by_cases hemp : l₁.isEmpty = true
  · have h1 : l₁ = [] := List.isEmpty_iff.1 hemp
    have h2 : l₂ = [] := List.Perm.eq_nil (hperm.symm.trans (by rw [h1]))
    rw [h1, h2]
  · have hne₂ : ¬ l₂.isEmpty = true := by
      intro hc
      refine hemp ?_
      have h2 : l₂ = [] := List.isEmpty_iff.1 hc
      have h1 : l₁ = [] := List.Perm.eq_nil (hperm.trans (by rw [h2]))
      rw [h1]
      rfl
    have hGM₁ := (assignGenerations_correct hD).1
    have hGM₂ := (assignGenerations_correct (ParentRank_perm hperm hD)).1
    have hrel := groups0Of_rel hGM₁.1 hGM₂.1 hgens (fun e he => (hGM₁.2 e he).1)
    obtain ⟨hp1, hxg1⟩ := pass1_eq hperm hnd hname hrel
    simp only [computeLayout]
    rw [if_neg hemp, if_neg hne₂]
    rw [hp1]
    rw [hp1] at hxg1
    obtain ⟨hp2, _⟩ := pass2_eq hperm
      (pass1 l₂ (l₂.map Person.id) (groups0Of (assignGenerations l₂))).1
      (pass1 l₂ (l₂.map Person.id) (groups0Of (assignGenerations l₂))).2 hxg1
    rw [hp2]
    rw [pass3_eq hnd hperm]
    have hymap : (fun e : String × Frac =>
        (e.1, e.2, Frac.ofInt (((genLookup (assignGenerations l₁) e.1).getD 0 : Int)
          * GAP_V)))
        = (fun e : String × Frac =>
        (e.1, e.2, Frac.ofInt (((genLookup (assignGenerations l₂) e.1).getD 0 : Int)
          * GAP_V))) :=
      funext (fun e => by rw [hgens e.1])
    rw [hymap]

/-- Two distinctly named, parentless persons in both input orders. -/
def c6det1 : List Person :=
  [⟨"1", "Ann", none, none, none, none, [], [], none⟩,
   ⟨"2", "Bob", none, none, none, none, [], [], none⟩]

def c6det2 : List Person :=
  [⟨"2", "Bob", none, none, none, none, [], [], none⟩,
   ⟨"1", "Ann", none, none, none, none, [], [], none⟩]

def c6dD : String → Nat := fun _ => 0

/-- Witness for the amended C6 theorem: its hypotheses hold on the concrete
pair of runs, and the conclusion follows by the theorem. -/
theorem computeLayout_deterministic_witness :
    (c6det1.Perm c6det2 ∧ (c6det1.map Person.id).Nodup ∧
      ParentRank c6det1 c6dD ∧
      (∀ p ∈ c6det1, ∀ q ∈ c6det1, nameKey p = nameKey q → p.id = q.id)) ∧
    ((computeLayout c6det1).positions = (computeLayout c6det2).positions ∧
      ∀ i, genLookup (assignGenerations c6det1) i
        = genLookup (assignGenerations c6det2) i) :=
  ⟨⟨by decide, by decide, by unfold ParentRank; decide, by decide⟩,
    @computeLayout_deterministic c6det1 c6det2 c6dD (by decide) (by decide)
      (by unfold ParentRank; decide) (by decide)⟩
